import Mathlib

/-!
Verification development for the Cardify note-card editor (src/cardify.py).

Python strings are modelled as `List Char` (a Python `str` is a sequence of
code points).  Functions that the source applies line-by-line (the
`re.MULTILINE` anchored regexes) are modelled by splitting the character
list at newline characters, acting on the list of lines, and joining back;
`splitNL`/`joinT` implement exactly Python's `s.split('\n')` /
`'\n'.join(...)`.
-/

namespace Cardify

/-- A Python string: a list of code points. -/
abbrev PyStr := List Char

/-- A text seen as its list of lines (the fields of `s.split('\n')`). -/
abbrev Lines := List PyStr

/-- The characters stripped by Python's `str.strip()` (ASCII whitespace;
the rarely-used extra unicode spaces are not modelled). -/
def isPySpace (c : Char) : Bool :=
  c = ' ' || c = '\t' || c = '\n' || c = '\r' || c = '\x0b' || c = '\x0c'

/-- Python `s.lstrip()`. -/
def lstripL (s : PyStr) : PyStr := s.dropWhile isPySpace

/-- Python `s.rstrip()`. -/
def rstripL (s : PyStr) : PyStr := (s.reverse.dropWhile isPySpace).reverse

/-- Python `s.strip()`. -/
def stripL (s : PyStr) : PyStr := lstripL (rstripL s)

/-- `s.split('\n')`: the list of newline-separated fields (always nonempty). -/
def splitNL : PyStr → Lines
  | [] => [[]]
  | '\n' :: cs => [] :: splitNL cs
  | c :: cs =>
    match splitNL cs with
    | [] => [[c]]
    | l :: ls => (c :: l) :: ls

/-- `'\n'.join(lines)`. -/
def joinT : Lines → PyStr
  | [] => []
  | [l] => l
  | l :: ls => l ++ '\n' :: joinT ls

/-- A line is blank when it consists of whitespace only. -/
def isBlank (l : PyStr) : Bool := lstripL l = []

/-- A line matched by the `re.MULTILINE` regex `^# (.+)$` of
`extract_title`: it starts with `# ` and has at least one further
character (`.` does not match a newline, and lines are newline-free). -/
def isHeading (l : PyStr) : Bool := "# ".toList.isPrefixOf l && decide (2 < l.length)

/-- The (stripped) group of the `^# (.+)$` match on a line. -/
def headingVal (l : PyStr) : PyStr := stripL (l.drop 2)

/-- A line matched by the regex `^Tags: (.+)$` of `extract_tags`. -/
def isTags (l : PyStr) : Bool := "Tags: ".toList.isPrefixOf l && decide (6 < l.length)

/-- The (stripped) group of the `^Tags: (.+)$` match on a line. -/
def tagsVal (l : PyStr) : PyStr := stripL (l.drop 6)

/-- `extract_title` on a line list: the first `^# (.+)$` match,
stripped, else the default `"Untitled Card"` (cardify.py lines 617-623). -/
def extract_title (t : Lines) : PyStr :=
  match t.find? isHeading with
  | some l => headingVal l
  | none => "Untitled Card".toList

/-- `extract_tags` on a line list: the first `^Tags: (.+)$` match,
stripped, else the empty string (cardify.py lines 625-631). -/
def extract_tags (t : Lines) : PyStr :=
  match t.find? isTags with
  | some l => tagsVal l
  | none => []

/-- `extract_title` on a raw string. -/
def extractTitleS (s : PyStr) : PyStr := extract_title (splitNL s)

/-- `extract_tags` on a raw string. -/
def extractTagsS (s : PyStr) : PyStr := extract_tags (splitNL s)

/-- `re.sub(r'^<target>$', '', text, flags=re.MULTILINE)` for a literal
(`re.escape`d) target: every line equal to the target becomes empty. -/
def subLine (target : PyStr) (t : Lines) : Lines :=
  t.map fun l => if l = target then [] else l

/-- String-level form of `subLine`. -/
def subLineS (target : PyStr) (s : PyStr) : PyStr := joinT (subLine target (splitNL s))

/-- Worker for `re.sub(r'\n{3,}', '\n\n', s)`: `n` counts the pending run
of newline characters; a finished run of three or more is emitted as two. -/
def collapseGo : Nat → PyStr → PyStr
  | n, [] => List.replicate (if 3 ≤ n then 2 else n) '\n'
  | n, c :: cs =>
    if c = '\n' then collapseGo (n + 1) cs
    else List.replicate (if 3 ≤ n then 2 else n) '\n' ++ c :: collapseGo 0 cs

/-- `re.sub(r'\n{3,}', '\n\n', s)`: runs of three or more newlines
become exactly two. -/
def collapseNL (s : PyStr) : PyStr := collapseGo 0 s

/-- Python `sub in s` / `str.find`-style first-occurrence replacement:
`s.replace(pat, repl, 1)`. -/
def replace1 (pat repl : PyStr) (s : PyStr) : PyStr :=
  match s with
  | [] => if pat = [] then repl else []
  | c :: cs =>
    if pat.isPrefixOf (c :: cs) then repl ++ (c :: cs).drop pat.length
    else c :: replace1 pat repl cs

/-! ## Preview geometry (update_preview, lines 664-685)

The source computes with Python floats; here the arithmetic is idealised
as exact rationals, with `Rat.floor` for `int()` (all quantities involved
are nonnegative, where truncation and floor agree).  Concrete inputs used
in theorems are chosen so that the float and rational computations give
the same integers. -/

/-- The `card_ratio` selected at cardify.py lines 664-670: the code's
ratio is the drawn rectangle's width divided by its height.  Only the
sizes `"3x5"` and `"4x6"` are distinguished; anything else (including
`"5x7"`) falls into the default branch. -/
def card_ratio (size orientation : String) : ℚ :=
  if size = "3x5" then (if orientation = "portrait" then 5/3 else 3/5)
  else if size = "4x6" then (if orientation = "portrait" then 6/4 else 4/6)
  else (if orientation = "portrait" then 5/3 else 3/5)

/-- The preview card rectangle `(card_width, card_height)` computed at
lines 672-680 from the canvas dimensions. -/
def drawnSize (canvasW canvasH : ℤ) (size orientation : String) : ℤ × ℤ :=
  let r := card_ratio size orientation
  if r < (canvasW : ℚ) / (canvasH : ℚ) then
    let h : ℤ := Rat.floor ((canvasH : ℚ) * (9/10))
    (Rat.floor ((h : ℚ) * r), h)
  else
    let w : ℤ := Rat.floor ((canvasW : ℚ) * (9/10))
    (w, Rat.floor ((w : ℚ) / r))

/-! ## Card store and navigation state -/

/-- A card record: the dictionaries appended to `self.cards`. -/
structure Card where
  front : PyStr
  back : PyStr
  title : PyStr
deriving DecidableEq, Repr

/-- Which side is being edited. -/
inductive Side | front | back
deriving DecidableEq, Repr

/-- The application state relevant to the card store: the card list,
`current_card_index` (a Python int, so modelled as ℤ), `current_side`,
the text widget's full content as returned by `get("1.0", tk.END)`
(which includes the trailing newline the widget maintains), and the
character-count status field. -/
structure AppState where
  cards : List Card
  idx : ℤ
  side : Side
  editor : PyStr
  charCount : ℕ
deriving DecidableEq, Repr

/-- Replace the element at position `i` (no-op when out of range; the
source would raise `IndexError` there, a state the invariant excludes). -/
def modifyIdx (f : α → α) : ℕ → List α → List α
  | _, [] => []
  | 0, x :: xs => f x :: xs
  | n + 1, x :: xs => x :: modifyIdx f n xs

/-- Fetch `self.cards[i]` (dummy card when out of range, excluded by the
index invariant). -/
def getCard (cs : List Card) (i : ℕ) : Card := cs.getD i ⟨[], [], []⟩

/-- `save_current_side_content` (lines 547-563): strip the editor text,
store it into the current side of the current card, and recompute the
title from it when the current side is the front. -/
def save_current_side_content (st : AppState) : AppState :=
  if st.cards = [] then st
  else
    let content := stripL st.editor
    match st.side with
    | Side.front =>
      let f := fun c : Card => { c with front := content, title := extractTitleS content }
      { st with cards := modifyIdx f st.idx.toNat st.cards }
    | Side.back =>
      let f := fun c : Card => { c with back := content }
      { st with cards := modifyIdx f st.idx.toNat st.cards }

/-- The content of the given side of a card. -/
def sideContent (c : Card) : Side → PyStr
  | Side.front => c.front
  | Side.back => c.back

/-- Load a string into the text widget (`delete("1.0", END)` followed by
`insert("1.0", content)`): afterwards `get("1.0", END)` returns the
content plus the widget's trailing newline. -/
def loadEditor (c : PyStr) : PyStr := c ++ ['\n']

/-- `prev_card` (lines 838-856). -/
def prev_card (st : AppState) : AppState :=
  if 0 < st.idx then
    let st1 := save_current_side_content st
    let idx' := st.idx - 1
    { st1 with idx := idx',
               editor := loadEditor (sideContent (getCard st1.cards idx'.toNat) st1.side) }
  else st

/-- `next_card` (lines 858-876). -/
def next_card (st : AppState) : AppState :=
  if st.idx < (st.cards.length : ℤ) - 1 then
    let st1 := save_current_side_content st
    let idx' := st.idx + 1
    { st1 with idx := idx',
               editor := loadEditor (sideContent (getCard st1.cards idx'.toNat) st1.side) }
  else st

/-- `switch_card_side` (lines 878-913): returns immediately when already
on the requested side; otherwise saves, flips the side, and reloads the
editor from the stored content of that side. -/
def switch_card_side (st : AppState) (side : Side) : AppState :=
  if side = st.side then st
  else
    let st1 := if st.cards = [] then st else save_current_side_content st
    let st2 := { st1 with side := side }
    if st2.cards = [] then st2
    else { st2 with
           editor := loadEditor (sideContent (getCard st2.cards st2.idx.toNat) side) }

/-- The record appended by `new_card` (lines 809-813). -/
def newCardRecord : Card :=
  { front := "# New Card\n\nContent goes here...\n\nTags: #new".toList
    back := []
    title := "New Card".toList }

/-- `new_card` (lines 802-825): save, append a fresh card, jump to it,
then `switch_card_side("front")`. -/
def new_card (st : AppState) : AppState :=
  let st1 := if st.cards = [] then st else save_current_side_content st
  let cards' := st1.cards ++ [newCardRecord]
  switch_card_side { st1 with cards := cards', idx := (cards'.length : ℤ) - 1 } Side.front

/-- `on_text_change` (lines 596-615).  Returns the new state and whether
`generate_pdf` was invoked.  The `if` branch deletes `("end-6c", "end")`:
the five characters before the widget's final newline together with that
newline, which tk then restores.  The effects of the `generate_pdf` call
itself (dialogs, file output) are outside this model. -/
def on_text_change (st : AppState) : AppState × Bool :=
  let content := st.editor
  if "print".toList.isSuffixOf (stripL content) then
    ({ st with editor := content.take (content.length - 6) ++ ['\n'] }, true)
  else
    let st1 := { st with charCount := (stripL content).length }
    (if st1.cards = [] then st1 else save_current_side_content st1, false)

/-! ## The inline markdown substitutions

`re.sub(r'\*\*(.*?)\*\*', ...)`, `re.sub(r'\*(.*?)\*', ...)` and
`re.sub(r'`(.*?)`', ...)` are modelled by left-to-right scanners.  The
lazy group `(.*?)` matches the shortest span, cannot cross a newline
(`.` excludes `'\n'`), and substitution continues after each match
(non-overlapping, leftmost-first), exactly as in Python's `re.sub`. -/

/-- Find the earliest closing single delimiter `d` (no newline may
intervene); returns the group and the rest after the delimiter. -/
def findClose1 (d : Char) : PyStr → Option (PyStr × PyStr)
  | [] => none
  | c :: rest =>
    if c = '\n' then none
    else if c = d then some ([], rest)
    else (findClose1 d rest).map fun p => (c :: p.1, p.2)

/-- Find the earliest closing doubled delimiter `d d`. -/
def findClose2 (d : Char) : PyStr → Option (PyStr × PyStr)
  | [] => none
  | [_] => none
  | c1 :: c2 :: rest =>
    if c1 = '\n' then none
    else if c1 = d ∧ c2 = d then some ([], rest)
    else (findClose2 d (c2 :: rest)).map fun p => (c1 :: p.1, p.2)

/-- `findClose1 d s = some (x, r)` exposes `s` as `x ++ d :: r`. -/
theorem findClose1_split {d : Char} :
    ∀ {s x r : PyStr}, findClose1 d s = some (x, r) → s = x ++ d :: r := by
  intro s
  induction s with
  | nil => intro x r h; simp [findClose1] at h
  | cons c rest ih =>
    intro x r h
    simp only [findClose1] at h
    split at h
    · simp at h
    · split at h
      · simp only [Option.some.injEq, Prod.mk.injEq] at h
        obtain ⟨rfl, rfl⟩ := h.symm.imp Eq.symm Eq.symm
        simp_all
      · cases hf : findClose1 d rest with
        | none => rw [hf] at h; simp at h
        | some p =>
          rw [hf] at h
          simp only [Option.map, Option.some.injEq, Prod.mk.injEq] at h
          obtain ⟨rfl, rfl⟩ := h.symm.imp Eq.symm Eq.symm
          simp [ih hf]

/-- `findClose2 d s = some (x, r)` exposes `s` as `x ++ d :: d :: r`. -/
theorem findClose2_split {d : Char} :
    ∀ {s x r : PyStr}, findClose2 d s = some (x, r) → s = x ++ d :: d :: r := by
  intro s
  induction s with
  | nil => intro x r h; simp [findClose2] at h
  | cons c1 tail ih =>
    intro x r h
    cases tail with
    | nil => simp [findClose2] at h
    | cons c2 rest =>
      simp only [findClose2] at h
      split at h
      · simp at h
      · split at h
        · simp only [Option.some.injEq, Prod.mk.injEq] at h
          obtain ⟨rfl, rfl⟩ := h.symm.imp Eq.symm Eq.symm
          rename_i hd
          obtain ⟨rfl, rfl⟩ := hd
          simp
        · cases hf : findClose2 d (c2 :: rest) with
          | none => rw [hf] at h; simp at h
          | some p =>
            rw [hf] at h
            simp only [Option.map, Option.some.injEq, Prod.mk.injEq] at h
            obtain ⟨rfl, rfl⟩ := h.symm.imp Eq.symm Eq.symm
            simp [ih hf]

/-- `re.sub` for a single-character delimiter pattern `d(.*?)d`, emitting
`pre ++ group ++ post` for each match and resuming after it (by
`findClose1_split` the resumption point `rest.drop (x.length + 1)` is
exactly the remainder found by `findClose1`). -/
def sub1 (d : Char) (pre post : PyStr) : PyStr → PyStr
  | [] => []
  | c :: rest =>
    if c = d then
      match findClose1 d rest with
      | some (x, _) => pre ++ x ++ post ++ sub1 d pre post (rest.drop (x.length + 1))
      | none => c :: sub1 d pre post rest
    else c :: sub1 d pre post rest
termination_by s => s.length
decreasing_by
  · simp [List.length_drop]; omega
  · simp
  · simp

/-- `re.sub` for the doubled-delimiter pattern `dd(.*?)dd`. -/
def sub2 (d : Char) (pre post : PyStr) : PyStr → PyStr
  | [] => []
  | [c] => [c]
  | c1 :: c2 :: rest =>
    if c1 = d ∧ c2 = d then
      match findClose2 d rest with
      | some (x, _) => pre ++ x ++ post ++ sub2 d pre post (rest.drop (x.length + 2))
      | none => c1 :: sub2 d pre post (c2 :: rest)
    else c1 :: sub2 d pre post (c2 :: rest)
termination_by s => s.length
decreasing_by
  · simp [List.length_drop]; omega
  · simp
  · simp

/-- The full preview text transform (update_preview lines 757-775):
strip, remove the bold, italic and code markers (replacement `r'\\1'`),
then rewrite each line starting with `- ` to start with the bullet
glyph `• `. -/
def bulletLine (l : PyStr) : PyStr :=
  if "- ".toList.isPrefixOf l then "• ".toList ++ l.drop 2 else l

/-- The three marker-removal passes of the preview path (lines
760-767): bold, then italic, then inline code, each replaced by the
bare group `r'\1'`. -/
def previewInline (s : PyStr) : PyStr :=
  sub1 '`' [] [] (sub1 '*' [] [] (sub2 '*' [] [] s))

/-- See `bulletLine`; this is `display_content` as drawn on the canvas. -/
def previewTransform (content : PyStr) : PyStr :=
  joinT ((splitNL (previewInline (stripL content))).map bulletLine)

/-- The inline pass of the PDF path (lines 1300-1305): markers become
`<b>`, `<i>` and `<code>` markup tags. -/
def pdfInline (p : PyStr) : PyStr :=
  sub1 '`' "<code>".toList "</code>".toList
    (sub1 '*' "<i>".toList "</i>".toList
      (sub2 '*' "<b>".toList "</b>".toList p))

/-! ## The PDF element list (generate_pdf, lines 1274-1378) -/

/-- The styles a reportlab paragraph is given in `generate_pdf`. -/
inductive PStyle | title | content | tags | sideIndicator
deriving DecidableEq, Repr

/-- A flowable appended to the element lists of `generate_pdf`. -/
inductive PElem
  | para (text : PyStr) (style : PStyle)
  | spacer
  | pageBreak
deriving DecidableEq, Repr

/-- `s.split('\n\n')`: fields separated by the exact two-character
separator, leftmost and non-overlapping. -/
def split2NL : PyStr → List PyStr
  | [] => [[]]
  | '\n' :: '\n' :: cs => [] :: split2NL cs
  | c :: cs =>
    match split2NL cs with
    | [] => [[c]]
    | l :: ls => (c :: l) :: ls

/-- `html.escape` on one character (with the default `quote=True`). -/
def htmlEscapeChar (c : Char) : PyStr :=
  if c = '&' then "&amp;".toList
  else if c = '<' then "&lt;".toList
  else if c = '>' then "&gt;".toList
  else if c = '"' then "&quot;".toList
  else if c = '\'' then "&#x27;".toList
  else [c]

/-- `html.escape(s)`. -/
def htmlEscape (s : PyStr) : PyStr := (s.map htmlEscapeChar).flatten

/-- The elements one paragraph contributes (lines 1289-1307): skipped
when blank; a paragraph starting `- ` yields one bullet paragraph per
line that starts `- ` (other lines of it are dropped, and no inline
substitution runs); otherwise one paragraph with the inline markup. -/
def pdfParagraphElems (p : PyStr) : List PElem :=
  if stripL p = [] then []
  else if "- ".toList.isPrefixOf p then
    (splitNL p).filterMap fun line =>
      if "- ".toList.isPrefixOf line
      then some (PElem.para ("• ".toList ++ stripL (line.drop 2)) PStyle.content)
      else none
  else [PElem.para (pdfInline p) PStyle.content]

/-- The element list built for one side (lines 1274-1312 for the front,
1336-1372 for the back): optional side indicator, title paragraph and
spacer when a title exists, the body paragraphs, then spacer and tags
paragraph when tags exist.  `contentClean` is the side's content with
title and tags lines already removed but not yet stripped. -/
def sideElems (indicator : PyStr) (showInd : Bool) (title tags contentClean : PyStr) :
    List PElem :=
  (if showInd then [PElem.para indicator PStyle.sideIndicator] else [])
    ++ (if title ≠ "Untitled Card".toList
        then [PElem.para (htmlEscape title) PStyle.title, PElem.spacer] else [])
    ++ ((split2NL (stripL contentClean)).map pdfParagraphElems).flatten
    ++ (if tags ≠ []
        then [PElem.spacer, PElem.para (htmlEscape tags) PStyle.tags] else [])

/-- The complete `all_elements` list handed to `pdf.build` (lines
1184-1378): the front elements, then — exactly when the stripped back
content is non-empty — a page break followed by the back elements built
from the back's own extracted title and tags. -/
def generatePdfElems (front back : PyStr) (showInd : Bool) : List PElem :=
  let backC := stripL back
  let title := extractTitleS front
  let fTags := extractTagsS front
  let fcc := if title ≠ "Untitled Card".toList
             then subLineS ("# ".toList ++ title) front else front
  let fcc := if fTags ≠ [] then subLineS ("Tags: ".toList ++ fTags) fcc else fcc
  let frontEls := sideElems "F".toList showInd title fTags fcc
  if backC ≠ [] then
    let bTitle := extractTitleS backC
    let bTags := extractTagsS backC
    let bcc := if bTitle ≠ "Untitled Card".toList
               then subLineS ("# ".toList ++ bTitle) backC else backC
    let bcc := if bTags ≠ [] then subLineS ("Tags: ".toList ++ bTags) bcc else bcc
    (frontEls ++ [PElem.pageBreak]) ++ sideElems "B".toList showInd bTitle bTags bcc
  else frontEls

/-! ## Markdown export (export_markdown, lines 1084-1154)

Only the construction of the exported text is modelled; the file dialog
and the write are I/O glue. -/

/-- The markdown text written by `export_markdown` for a card with the
given front content and (unstripped) back content. -/
def export_markdown_content (front back : PyStr) : PyStr :=
  let fT := extractTitleS front
  let fG := extractTagsS front
  let backC := stripL back
  let fcc := if fT ≠ "Untitled Card".toList
             then subLineS ("# ".toList ++ fT) front else front
  let fcc := if fG ≠ [] then subLineS ("Tags: ".toList ++ fG) fcc else fcc
  let fcc := collapseNL fcc
  if backC ≠ [] then
    let bT := extractTitleS backC
    let bG := extractTagsS backC
    let bcc := if bT = fT then subLineS ("# ".toList ++ bT) backC else backC
    let bcc := if bG ≠ [] then subLineS ("Tags: ".toList ++ bG) bcc else bcc
    let bcc := collapseNL bcc
    "# ".toList ++ fT ++ "\n\n".toList ++ stripL fcc ++ "\n\nTags: ".toList ++ fG
      ++ "\n\n## Back Side\n\n".toList ++ stripL bcc ++ "\n".toList
      ++ (if bG ≠ [] then "\nTags: ".toList ++ bG else [])
  else
    "# ".toList ++ fT ++ "\n\n".toList ++ stripL fcc
      ++ "\n\nTags: ".toList ++ fG ++ "\n".toList

/-- Re-importing the back section: the lines that follow the first
`## Back Side` line of an exported document. -/
def backSectionLines (s : PyStr) : Lines :=
  (((splitNL s).dropWhile fun l => decide (l ≠ "## Back Side".toList))).drop 1

/-! ## The preview body derivation (update_preview, lines 641-650 and 758) -/

/-- The body string drawn in the content area of the preview: the raw
content with the first occurrence of the title line's text and of the
tags line's text removed (plain `str.replace(..., 1)`), then stripped. -/
def previewBody (content : PyStr) : PyStr :=
  let title := extractTitleS content
  let tags := extractTagsS content
  let c1 := if title ≠ "Untitled Card".toList
            then replace1 ("# ".toList ++ title) [] content else content
  let c2 := if tags ≠ [] then replace1 ("Tags: ".toList ++ tags) [] c1 else c1
  stripL c2

end Cardify

namespace Cardify

example : splitNL "a\n\nb".toList = ["a".toList, [], "b".toList] := by decide

example : joinT ["a".toList, [], "b".toList] = "a\n\nb".toList := by decide

example : stripL "  a b\n ".toList = "a b".toList := by decide

example : extractTitleS "x\n# T \nTags: #a".toList = "T".toList := by decide

example : extractTagsS "x\n# T \nTags: #a".toList = "#a".toList := by decide

example : extractTitleS "no heading".toList = "Untitled Card".toList := by decide

example : collapseNL "a\n\n\n\nb\n\nc".toList = "a\n\nb\n\nc".toList := by decide

example : replace1 "# Hi".toList [] "# Hi\n\nBody".toList = "\n\nBody".toList := by decide

end Cardify

namespace Cardify

example : splitNL "a\n\nb".toList = ["a".toList, [], "b".toList] := by decide

example : joinT ["a".toList, [], "b".toList] = "a\n\nb".toList := by decide

example : stripL "  a b\n ".toList = "a b".toList := by decide

end Cardify

namespace Cardify

example : export_markdown_content "# T\n\nHello **w**\n\nTags: #a #b".toList
    "# B\n\nback body\n\nTags: #z".toList
    = "# T\n\nHello **w**\n\nTags: #a #b\n\n## Back Side\n\n# B\n\nback body\n\nTags: #z".toList := by
  decide

example : export_markdown_content "# T\n\nHello **w**\n\nTags: #a #b".toList []
    = "# T\n\nHello **w**\n\nTags: #a #b\n".toList := by decide

example : export_markdown_content "Tags: #a\nTags: #b".toList []
    = "# Untitled Card\n\nTags: #b\n\nTags: #a\n".toList := by decide

example : extractTagsS (export_markdown_content "Tags: #a\nTags: #b".toList []) = "#b".toList := by
  decide

example : previewTransform "- **x**".toList = "• x".toList := by
  simp [previewTransform, previewInline, stripL, lstripL, rstripL, isPySpace, sub2, findClose2,
        sub1, findClose1, splitNL, joinT, bulletLine, List.isPrefixOf]

example : pdfParagraphElems "- **x**".toList
    = [PElem.para "• **x**".toList PStyle.content] := by decide

example : previewTransform "  **Bold** and *it* and `co`\n- item one ".toList
    = "Bold and it and co\n• item one".toList := by
  simp [previewTransform, previewInline, stripL, lstripL, rstripL, isPySpace, sub2, findClose2,
        sub1, findClose1, splitNL, joinT, bulletLine, List.isPrefixOf]

example : pdfParagraphElems "**Bold** and *it* and `co`".toList
    = [PElem.para "<b>Bold</b> and <i>it</i> and <code>co</code>".toList PStyle.content] := by
  simp [pdfParagraphElems, pdfInline, stripL, lstripL, rstripL, isPySpace, sub2, findClose2,
        sub1, findClose1, splitNL, List.isPrefixOf]

example : pdfParagraphElems "- a\nnot bullet\n- b".toList
    = [PElem.para "• a".toList PStyle.content, PElem.para "• b".toList PStyle.content] := by
  decide

example : sub2 '*' [] [] "**a***".toList = "a*".toList := by
  simp [sub2, findClose2]

example : sub2 '*' "<b>".toList "</b>".toList "***ab**".toList = "<b>*ab</b>".toList := by
  simp [sub2, findClose2]

example : sub2 '*' "<b>".toList "</b>".toList "**a\nb**".toList = "**a\nb**".toList := by
  simp [sub2, findClose2]

example : sub1 '*' [] [] "*a**b*".toList = "ab".toList := by
  simp [sub1, findClose1]

example : split2NL "a\n\n\nb".toList = ["a".toList, "\nb".toList] := by decide

end Cardify

namespace Cardify

/-! ## Claim theorems -/

/-- C1 counterexample.  The claim asserts the preview's height/width
ratio is 5/3 for a 3x5 portrait card and 7/5 for a 5x7 portrait card.
In the code the selected `card_ratio` is the width/height ratio: at a
2000x602 canvas a 3x5 portrait card is drawn 901 wide and 541 high, so
height/width is 541/901, not 5/3; and `"5x7"` has no branch of its own
at lines 664-670, so its ratio falls back to the 3x5 value 5/3, not 7/5. -/
theorem c1_counterexample :
    card_ratio "5x7" "portrait" ≠ 7/5 ∧
    ((drawnSize 2000 602 "3x5" "portrait").2 : ℚ)
        / ((drawnSize 2000 602 "3x5" "portrait").1 : ℚ) ≠ 5/3 := by
  constructor
  · simp only [card_ratio, String.reduceEq, reduceIte]
    norm_num
  · simp only [drawnSize, card_ratio, String.reduceEq, reduceIte]
    norm_num [Rat.floor]

/-- C1 (amended): the preview rectangle's width/height ratio is 5/3 for
a 3x5 card and 6/4 for a 4x6 card in portrait orientation and the
inverse in landscape; any other configured size, including 5x7, falls
back to the 3x5 ratios.  Switching a 3x5 card from portrait to landscape
changes the width:height ratio from 5:3 to 3:5 (e.g. at a 2000x602
canvas the drawn rectangle goes from 901x541 to 324x541). -/
theorem c1_amended :
    card_ratio "3x5" "portrait" = 5/3 ∧ card_ratio "3x5" "landscape" = 3/5 ∧
    card_ratio "4x6" "portrait" = 6/4 ∧ card_ratio "4x6" "landscape" = 4/6 ∧
    (∀ size : String, size ≠ "3x5" → size ≠ "4x6" →
       card_ratio size "portrait" = 5/3 ∧ card_ratio size "landscape" = 3/5) ∧
    drawnSize 2000 602 "3x5" "portrait" = (901, 541) ∧
    drawnSize 2000 602 "3x5" "landscape" = (324, 541) := by
  refine ⟨by simp only [card_ratio, String.reduceEq, reduceIte],
          by simp only [card_ratio, String.reduceEq, reduceIte] <;> norm_num,
          by simp only [card_ratio, String.reduceEq, reduceIte] <;> norm_num,
          by simp only [card_ratio, String.reduceEq, reduceIte] <;> norm_num, ?_,
          by simp only [drawnSize, card_ratio, String.reduceEq, reduceIte] <;> norm_num [Rat.floor],
          by simp only [drawnSize, card_ratio, String.reduceEq, reduceIte] <;> norm_num [Rat.floor]⟩
  intro size h1 h2
  refine ⟨?_, ?_⟩
  · simp only [card_ratio, h1, h2, if_false, String.reduceEq, reduceIte]
  · simp only [card_ratio, h1, h2, if_false, String.reduceEq, reduceIte] <;> norm_num

/-- C1 witness: the amended statement applied to the concrete size
`"5x7"`. -/
theorem c1_amended_witness :
    card_ratio "5x7" "portrait" = 5/3 ∧ card_ratio "5x7" "landscape" = 3/5 :=
  c1_amended.2.2.2.2.1 "5x7" (by simp) (by simp)

/-- C8: on the front text `"# Hi\n\nBody\n\nTags: #x"` the extraction
yields title `"Hi"` and tags `"#x"`, and the preview's derived body
(title and tags occurrences removed, then stripped) is exactly
`"Body"`. -/
theorem c8_example :
    extractTitleS "# Hi\n\nBody\n\nTags: #x".toList = "Hi".toList ∧
    extractTagsS "# Hi\n\nBody\n\nTags: #x".toList = "#x".toList ∧
    previewBody "# Hi\n\nBody\n\nTags: #x".toList = "Body".toList := by
  refine ⟨by decide, by decide, by decide⟩

end Cardify

namespace Cardify

/-! ### Helper lemmas about the state operations -/

theorem modifyIdx_length (f : α → α) : ∀ (i : ℕ) (l : List α),
    (modifyIdx f i l).length = l.length := by
  intro i
  induction i with
  | zero => intro l; cases l <;> simp [modifyIdx]
  | succ n ih => intro l; cases l <;> simp [modifyIdx, ih]

theorem save_cards_length (st : AppState) :
    (save_current_side_content st).cards.length = st.cards.length := by
  unfold save_current_side_content
  split
  · rfl
  · cases st.side <;> simp [modifyIdx_length]

theorem save_idx (st : AppState) : (save_current_side_content st).idx = st.idx := by
  unfold save_current_side_content
  split
  · rfl
  · cases st.side <;> rfl

theorem save_side (st : AppState) : (save_current_side_content st).side = st.side := by
  unfold save_current_side_content
  split
  · rfl
  · cases h : st.side <;> simp [h]

theorem save_editor (st : AppState) : (save_current_side_content st).editor = st.editor := by
  unfold save_current_side_content
  split
  · rfl
  · cases st.side <;> rfl

theorem save_cards_eq_nil (st : AppState) :
    ((save_current_side_content st).cards = []) ↔ st.cards = [] := by
  rw [← List.length_eq_zero, ← List.length_eq_zero, save_cards_length]

theorem switch_idx (st : AppState) (sd : Side) :
    (switch_card_side st sd).idx = st.idx := by
  unfold switch_card_side
  split
  · rfl
  · dsimp only
    by_cases h1 : st.cards = []
    · simp [h1]
    · have h2 : ¬ (save_current_side_content st).cards = [] := by
        simp [save_cards_eq_nil, h1]
      simp [h1, h2, save_idx]

theorem switch_cards_length (st : AppState) (sd : Side) :
    (switch_card_side st sd).cards.length = st.cards.length := by
  unfold switch_card_side
  split
  · rfl
  · dsimp only
    by_cases h1 : st.cards = []
    · simp [h1]
    · have h2 : ¬ (save_current_side_content st).cards = [] := by
        simp [save_cards_eq_nil, h1]
      simp [h1, h2, save_cards_length]

end Cardify

namespace Cardify

/-- C4: starting from any state whose index is in range, `prev_card`,
`next_card` and `new_card` keep it in range; `prev_card` at index 0 and
`next_card` at the last index leave the index unchanged (no wraparound);
and `new_card` sets the index to the newly appended last position. -/
theorem c4_navigation_invariant (st : AppState)
    (h : 0 ≤ st.idx ∧ st.idx < (st.cards.length : ℤ)) :
    (0 ≤ (prev_card st).idx ∧ (prev_card st).idx < ((prev_card st).cards.length : ℤ)) ∧
    (0 ≤ (next_card st).idx ∧ (next_card st).idx < ((next_card st).cards.length : ℤ)) ∧
    (0 ≤ (new_card st).idx ∧ (new_card st).idx < ((new_card st).cards.length : ℤ)) ∧
    (st.idx = 0 → (prev_card st).idx = st.idx) ∧
    (st.idx = (st.cards.length : ℤ) - 1 → (next_card st).idx = st.idx) ∧
    (new_card st).idx = (st.cards.length : ℤ) ∧
    (new_card st).cards.length = st.cards.length + 1 := by
  obtain ⟨h0, h1⟩ := h
  have hne : st.cards ≠ [] := by
    intro hc
    rw [hc] at h1
    simp at h1
    omega
  have hprev : (prev_card st).idx = if 0 < st.idx then st.idx - 1 else st.idx := by
    unfold prev_card
    split <;> simp_all
  have hprevlen : (prev_card st).cards.length = st.cards.length := by
    unfold prev_card
    split <;> simp [save_cards_length]
  have hnext : (next_card st).idx =
      if st.idx < (st.cards.length : ℤ) - 1 then st.idx + 1 else st.idx := by
    unfold next_card
    split <;> simp_all
  have hnextlen : (next_card st).cards.length = st.cards.length := by
    unfold next_card
    split <;> simp [save_cards_length]
  have hnewlen : (new_card st).cards.length = st.cards.length + 1 := by
    unfold new_card
    dsimp only
    rw [switch_cards_length]
    simp [hne, save_cards_length]
  have hnewidx : (new_card st).idx = (st.cards.length : ℤ) := by
    unfold new_card
    dsimp only
    rw [switch_idx]
    simp [hne, save_cards_length]
  refine ⟨⟨?_, ?_⟩, ⟨?_, ?_⟩, ⟨?_, ?_⟩, ?_, ?_, hnewidx, hnewlen⟩
  · rw [hprev]; split <;> omega
  · rw [hprev, hprevlen]; split <;> omega
  · rw [hnext]; split <;> omega
  · rw [hnext, hnextlen]; split <;> omega
  · rw [hnewidx]; omega
  · rw [hnewidx, hnewlen]; push_cast; omega
  · intro hz; rw [hprev]; split <;> omega
  · intro hl; rw [hnext]; split <;> omega

/-- C4 witness: the invariant theorem applied to a concrete two-card
state at index 1. -/
theorem c4_navigation_invariant_witness :
    let st : AppState :=
      ⟨[⟨"a".toList, [], "a".toList⟩, ⟨"b".toList, [], "b".toList⟩], 1,
        Side.front, "b\n".toList, 0⟩
    (0 ≤ (prev_card st).idx ∧ (prev_card st).idx < ((prev_card st).cards.length : ℤ)) ∧
    (0 ≤ (next_card st).idx ∧ (next_card st).idx < ((next_card st).cards.length : ℤ)) ∧
    (0 ≤ (new_card st).idx ∧ (new_card st).idx < ((new_card st).cards.length : ℤ)) ∧
    (st.idx = 0 → (prev_card st).idx = st.idx) ∧
    (st.idx = (st.cards.length : ℤ) - 1 → (next_card st).idx = st.idx) ∧
    (new_card st).idx = (st.cards.length : ℤ) ∧
    (new_card st).cards.length = st.cards.length + 1 :=
  c4_navigation_invariant _ (by constructor <;> decide)

end Cardify

namespace Cardify

theorem modifyIdx_getCard_self : ∀ (f : Card → Card) (i : ℕ) (l : List Card),
    i < l.length → getCard (modifyIdx f i l) i = f (getCard l i) := by
  intro f i
  induction i with
  | zero =>
    intro l h
    cases l with
    | nil => simp at h
    | cons x xs => simp [modifyIdx, getCard]
  | succ n ih =>
    intro l h
    cases l with
    | nil => simp at h
    | cons x xs =>
      simp only [modifyIdx, getCard, List.getD_cons_succ]
      exact ih xs (by simpa using h)

theorem modifyIdx_getCard_ne : ∀ (f : Card → Card) (i j : ℕ) (l : List Card),
    j ≠ i → getCard (modifyIdx f i l) j = getCard l j := by
  intro f i
  induction i with
  | zero =>
    intro j l hj
    cases l with
    | nil => simp [modifyIdx]
    | cons x xs =>
      cases j with
      | zero => exact absurd rfl hj
      | succ m => simp [modifyIdx, getCard]
  | succ n ih =>
    intro j l hj
    cases l with
    | nil => simp [modifyIdx]
    | cons x xs =>
      cases j with
      | zero => simp [modifyIdx, getCard]
      | succ m =>
        simp only [modifyIdx, getCard, List.getD_cons_succ]
        exact ih m xs (by omega)

/-- C5: saving with the back side current leaves every card's `title`
and `front` unchanged and stores only the stripped editor text into the
current card's `back`; saving with the front side current recomputes the
current card's `title` as `extract_title` of the (stripped) editor
content. -/
theorem c5_save_frame (st : AppState) (h : st.idx.toNat < st.cards.length) :
    (st.side = Side.back →
       (getCard (save_current_side_content st).cards st.idx.toNat).title
           = (getCard st.cards st.idx.toNat).title ∧
       (getCard (save_current_side_content st).cards st.idx.toNat).front
           = (getCard st.cards st.idx.toNat).front ∧
       (getCard (save_current_side_content st).cards st.idx.toNat).back
           = stripL st.editor ∧
       (∀ j : ℕ, j ≠ st.idx.toNat →
          getCard (save_current_side_content st).cards j = getCard st.cards j)) ∧
    (st.side = Side.front →
       (getCard (save_current_side_content st).cards st.idx.toNat).title
           = extractTitleS (stripL st.editor) ∧
       (getCard (save_current_side_content st).cards st.idx.toNat).front
           = stripL st.editor ∧
       (getCard (save_current_side_content st).cards st.idx.toNat).back
           = (getCard st.cards st.idx.toNat).back) := by
  have hne : st.cards ≠ [] := by
    intro hc
    rw [hc] at h
    simp at h
  constructor
  · intro hside
    unfold save_current_side_content
    rw [if_neg hne, hside]
    refine ⟨?_, ?_, ?_, ?_⟩
    · rw [modifyIdx_getCard_self _ _ _ h]
    · rw [modifyIdx_getCard_self _ _ _ h]
    · rw [modifyIdx_getCard_self _ _ _ h]
    · intro j hj
      exact modifyIdx_getCard_ne _ _ _ _ hj
  · intro hside
    unfold save_current_side_content
    rw [if_neg hne, hside]
    refine ⟨?_, ?_, ?_⟩
    · rw [modifyIdx_getCard_self _ _ _ h]
    · rw [modifyIdx_getCard_self _ _ _ h]
    · rw [modifyIdx_getCard_self _ _ _ h]

/-- C5 witness: the frame theorem applied to a concrete one-card state
being edited on its back side. -/
theorem c5_save_frame_witness :
    let st : AppState :=
      ⟨[⟨"# F".toList, "old".toList, "F".toList⟩], 0, Side.back, " b \n".toList, 0⟩
    (getCard (save_current_side_content st).cards st.idx.toNat).title = "F".toList ∧
    (getCard (save_current_side_content st).cards st.idx.toNat).front = "# F".toList ∧
    (getCard (save_current_side_content st).cards st.idx.toNat).back = "b".toList := by
  intro st
  have h := c5_save_frame st (by decide)
  obtain ⟨hb, -⟩ := h
  obtain ⟨h1, h2, h3, -⟩ := hb rfl
  refine ⟨?_, ?_, ?_⟩
  · rw [h1]; decide
  · rw [h2]; decide
  · rw [h3]; decide

end Cardify

namespace Cardify

/-- C10: `switch_card_side` with the side already current returns the
state unchanged (no save, no editor reload); consequently `new_card`
invoked while the front side is current appends the new card and makes
it current but leaves the editor text untouched (it still shows the
text that was in the editor, not the new card's default front). -/
theorem c10_switch_same_side_frame :
    (∀ (st : AppState) (sd : Side), sd = st.side → switch_card_side st sd = st) ∧
    (∀ st : AppState, st.side = Side.front →
       (new_card st).editor = st.editor ∧
       (new_card st).side = Side.front ∧
       (new_card st).idx = (st.cards.length : ℤ) ∧
       (new_card st).cards.getLast? = some newCardRecord) := by
  have hsame : ∀ (st : AppState) (sd : Side), sd = st.side → switch_card_side st sd = st := by
    intro st sd h
    unfold switch_card_side
    rw [if_pos h]
  refine ⟨hsame, ?_⟩
  intro st hfront
  have hst1 : ∀ st1 : AppState, st1 = (if st.cards = [] then st else save_current_side_content st) →
      st1.side = Side.front ∧ st1.editor = st.editor ∧ st1.cards.length = st.cards.length := by
    intro st1 h1
    subst h1
    split
    · exact ⟨hfront, rfl, rfl⟩
    · exact ⟨by rw [save_side, hfront], save_editor st, save_cards_length st⟩
  obtain ⟨hside1, hed1, hlen1⟩ := hst1 _ rfl
  have hnew : new_card st =
      { (if st.cards = [] then st else save_current_side_content st) with
        cards := (if st.cards = [] then st else save_current_side_content st).cards
                   ++ [newCardRecord],
        idx := (((if st.cards = [] then st else save_current_side_content st).cards
                   ++ [newCardRecord]).length : ℤ) - 1 } := by
    unfold new_card
    dsimp only
    apply hsame
    exact hside1.symm
  rw [hnew]
  refine ⟨hed1, hside1, ?_, ?_⟩
  · simp [hlen1]
  · simp

end Cardify

namespace Cardify

/-- C10 witness: both parts applied to a concrete front-side state whose
editor shows the first card's front text. -/
theorem c10_switch_same_side_frame_witness :
    let st : AppState :=
      ⟨[⟨"# Old".toList, [], "Old".toList⟩], 0, Side.front, "# Old\n".toList, 0⟩
    switch_card_side st Side.front = st ∧
    (new_card st).editor = "# Old\n".toList ∧
    (new_card st).cards.getLast? = some newCardRecord := by
  intro st
  refine ⟨c10_switch_same_side_frame.1 st Side.front rfl, ?_, ?_⟩
  · exact (c10_switch_same_side_frame.2 st rfl).1
  · exact (c10_switch_same_side_frame.2 st rfl).2.2.2

/-- C3 counterexample.  The text `"# A\n# Heading"` contains
`# Heading` on its own line, yet title extraction returns `"A"` (the
first heading), not `"Heading"`: the claimed independence from
surrounding content fails when an earlier `# ` line exists. -/
theorem c3_counterexample :
    "# Heading".toList ∈ splitNL "# A\n# Heading".toList ∧
    extractTitleS "# A\n# Heading".toList ≠ "Heading".toList := by
  constructor
  · decide
  · decide

/-- C3 (amended): title extraction returns the stripped content of the
FIRST line matching `# <text>`; in particular it returns `"Heading"`
whenever `# Heading` appears with no earlier heading line, and it
returns the default `"Untitled Card"` when no line matches. -/
theorem c3_amended :
    (∀ (pre post : Lines) (l : PyStr), (∀ x ∈ pre, ¬ isHeading x) → isHeading l →
       extract_title (pre ++ l :: post) = headingVal l) ∧
    (∀ (pre post : Lines), (∀ x ∈ pre, ¬ isHeading x) →
       extract_title (pre ++ "# Heading".toList :: post) = "Heading".toList) ∧
    (∀ t : Lines, (∀ x ∈ t, ¬ isHeading x) → extract_title t = "Untitled Card".toList) := by
  have hfirst : ∀ (pre post : Lines) (l : PyStr), (∀ x ∈ pre, ¬ isHeading x) → isHeading l →
      extract_title (pre ++ l :: post) = headingVal l := by
    intro pre post l hpre hl
    unfold extract_title
    rw [List.find?_append]
    have h1 : pre.find? isHeading = none := List.find?_eq_none.mpr hpre
    rw [h1, List.find?_cons_of_pos _ hl]
    rfl
  refine ⟨hfirst, ?_, ?_⟩
  · intro pre post hpre
    rw [hfirst pre post _ hpre (by decide)]
    decide
  · intro t ht
    unfold extract_title
    rw [List.find?_eq_none.mpr ht]

/-- C3 witness: the amended statement applied to a text with one
non-heading line before `# Heading`. -/
theorem c3_amended_witness :
    extract_title (["body".toList] ++ "# Heading".toList :: ["x".toList]) = "Heading".toList :=
  c3_amended.2.1 ["body".toList] ["x".toList] (by decide)

end Cardify

namespace Cardify

/-! ### Whitespace-stripping helper lemmas -/

theorem rstripL_append_ws (x w : PyStr) (hw : ∀ c ∈ w, isPySpace c) :
    rstripL (x ++ w) = rstripL x := by
  unfold rstripL
  rw [List.reverse_append, List.dropWhile_append]
  have : w.reverse.dropWhile isPySpace = [] := by
    rw [List.dropWhile_eq_nil_iff]
    intro c hc
    exact hw c (List.mem_reverse.mp hc)
  simp [this]

theorem rstripL_append_last (x : PyStr) (c : Char) (hc : ¬ isPySpace c) :
    rstripL (x ++ [c]) = x ++ [c] := by
  unfold rstripL
  rw [List.reverse_append]
  simp [List.dropWhile_cons, hc]

/-- The stripped form of a text ending in `print` plus the widget's
newline still ends in `print`. -/
theorem strip_ends_print (p : PyStr) :
    "print".toList.isSuffixOf (stripL (p ++ "print\n".toList)) := by
  rw [List.isSuffixOf_iff_suffix]
  have h1 : p ++ "print\n".toList = (p ++ "print".toList) ++ ['\n'] := by simp
  rw [h1]
  unfold stripL
  rw [rstripL_append_ws _ _ (by decide)]
  have h2 : rstripL (p ++ "print".toList) = p ++ "print".toList := by
    have : p ++ "print".toList = (p ++ "prin".toList) ++ ['t'] := by simp
    rw [this, rstripL_append_last _ _ (by decide)]
  rw [h2]
  unfold lstripL
  rw [List.dropWhile_append]
  split
  · decide
  · exact List.suffix_append _ _

/-- C9 (amended): the handler invokes `generate_pdf` exactly when the
stripped editor content ends with `print`; when the editor content is
some prefix followed by `print` and the widget's final newline, the
deleted text is exactly that `print`; otherwise the editor is left
unchanged, the character count becomes the stripped length, and the
card list is updated as by `save_current_side_content`.  (When the
trigger fires after trailing whitespace, the six deleted trailing
characters are not the trigger text - see the counterexample.) -/
theorem c9_amended :
    (∀ st : AppState,
       (on_text_change st).2 = true ↔ "print".toList.isSuffixOf (stripL st.editor)) ∧
    (∀ (st : AppState) (p : PyStr), st.editor = p ++ "print\n".toList →
       (on_text_change st).1.editor = p ++ ['\n'] ∧ (on_text_change st).2 = true) ∧
    (∀ st : AppState, ¬ "print".toList.isSuffixOf (stripL st.editor) →
       (on_text_change st).1.editor = st.editor ∧
       (on_text_change st).1.charCount = (stripL st.editor).length ∧
       (on_text_change st).1.cards = (save_current_side_content st).cards ∧
       (on_text_change st).2 = false) := by
  refine ⟨?_, ?_, ?_⟩
  · intro st
    unfold on_text_change
    dsimp only
    split
    · simp_all
    · constructor
      · intro h
        exfalso
        revert h
        split <;> simp
      · intro h
        simp_all
  · intro st p hed
    have htrig : "print".toList.isSuffixOf (stripL st.editor) := by
      rw [hed]; exact strip_ends_print p
    unfold on_text_change
    rw [if_pos htrig]
    refine ⟨?_, rfl⟩
    dsimp only
    rw [hed]
    have hlen : (p ++ "print\n".toList).length - 6 = p.length := by simp
    rw [hlen, List.take_left' rfl]
  · intro st h
    unfold on_text_change
    rw [if_neg h]
    dsimp only
    refine ⟨?_, ?_, ?_, rfl⟩
    · split
      · rfl
      · rw [save_editor]
    · split
      · rfl
      · rw [show ∀ s : AppState, (save_current_side_content s).charCount = s.charCount
            from ?_]
        · intro s
          unfold save_current_side_content
          split
          · rfl
          · cases s.side <;> rfl
    · split
      · rename_i hnil
        unfold save_current_side_content
        rw [if_pos (by exact hnil)]
      · unfold save_current_side_content
        split
        · rename_i hnil
          exact absurd hnil (by assumption)
        · cases st.side <;> rfl

end Cardify

namespace Cardify

/-- C9 witness: the amended statement applied to an editor reading
`"a print\n"` (trigger, deletion removes exactly `print`) and to one
reading `"hello\n"` (no trigger). -/
theorem c9_amended_witness :
    (let st1 : AppState := ⟨[], 0, Side.front, "a print\n".toList, 0⟩
     (on_text_change st1).1.editor = "a ".toList ++ ['\n'] ∧ (on_text_change st1).2 = true) ∧
    (let st2 : AppState := ⟨[], 0, Side.front, "hello\n".toList, 0⟩
     (on_text_change st2).1.editor = st2.editor ∧
     (on_text_change st2).1.charCount = (stripL st2.editor).length ∧
     (on_text_change st2).1.cards = (save_current_side_content st2).cards ∧
     (on_text_change st2).2 = false) :=
  ⟨c9_amended.2.1 ⟨[], 0, Side.front, "a print\n".toList, 0⟩ "a ".toList (by decide),
   c9_amended.2.2 ⟨[], 0, Side.front, "hello\n".toList, 0⟩ (by decide)⟩

/-- C9 counterexample.  With editor content `"x print \n"` (trailing
space before the widget's final newline) the trigger fires, but the six
deleted trailing characters are `"nt   "`-style, not the trigger text:
the editor becomes `"x p\n"`, while deleting the literal `print` would
give `"x  \n"`. -/
theorem c9_counterexample :
    (on_text_change ⟨[], 0, Side.front, "x print \n".toList, 0⟩).2 = true ∧
    (on_text_change ⟨[], 0, Side.front, "x print \n".toList, 0⟩).1.editor = "x p\n".toList ∧
    replace1 "print".toList [] "x print \n".toList = "x  \n".toList ∧
    (on_text_change ⟨[], 0, Side.front, "x print \n".toList, 0⟩).1.editor
      ≠ replace1 "print".toList [] "x print \n".toList := by
  refine ⟨by decide, by decide, by decide, by decide⟩

end Cardify

namespace Cardify

theorem pageBreak_not_mem_pdfParagraphElems (p : PyStr) :
    PElem.pageBreak ∉ pdfParagraphElems p := by
  unfold pdfParagraphElems
  split
  · simp
  · split
    · intro hmem
      rw [List.mem_filterMap] at hmem
      obtain ⟨a, -, ha⟩ := hmem
      split at ha <;> simp_all
    · simp

theorem pageBreak_not_mem_sideElems (ind : PyStr) (showInd : Bool) (t g c : PyStr) :
    PElem.pageBreak ∉ sideElems ind showInd t g c := by
  unfold sideElems
  intro h
  simp only [List.mem_append] at h
  rcases h with ((h | h) | h) | h
  · split at h <;> simp_all
  · split at h <;> simp_all
  · rw [List.mem_flatten] at h
    obtain ⟨l, hl, hmem⟩ := h
    rw [List.mem_map] at hl
    obtain ⟨p, -, rfl⟩ := hl
    exact pageBreak_not_mem_pdfParagraphElems p hmem
  · split at h <;> simp_all

/-- C6: the element list handed to `pdf.build` contains a page break,
followed by the back-side elements built with the back side's own
extracted title and tags, exactly when the card's back content is
non-empty after stripping; otherwise it consists of the front-side
elements only.  The page break never occurs anywhere else, so the front
content forms page 1 and the back content page 2. -/
theorem c6_pdf_structure (front back : PyStr) (showInd : Bool) :
    (PElem.pageBreak ∈ generatePdfElems front back showInd ↔ stripL back ≠ []) ∧
    (stripL back ≠ [] → ∃ fcc bcc,
       generatePdfElems front back showInd =
         sideElems "F".toList showInd (extractTitleS front) (extractTagsS front) fcc
           ++ PElem.pageBreak
           :: sideElems "B".toList showInd (extractTitleS (stripL back))
                (extractTagsS (stripL back)) bcc) ∧
    (stripL back = [] → ∃ fcc,
       generatePdfElems front back showInd =
         sideElems "F".toList showInd (extractTitleS front) (extractTagsS front) fcc) := by
  by_cases hb : stripL back = []
  · refine ⟨?_, ?_, ?_⟩
    · rw [generatePdfElems]
      simp only [hb, ne_eq, not_true_eq_false, if_false]
      constructor
      · intro h
        exact absurd h (pageBreak_not_mem_sideElems _ _ _ _ _)
      · intro h
        exact h.elim
    · intro h
      exact absurd hb h
    · intro h
      rw [generatePdfElems]
      simp only [hb, ne_eq, not_true_eq_false, if_false]
      exact ⟨_, rfl⟩
  · have hstruct : ∃ fcc bcc,
        generatePdfElems front back showInd =
          sideElems "F".toList showInd (extractTitleS front) (extractTagsS front) fcc
            ++ PElem.pageBreak
            :: sideElems "B".toList showInd (extractTitleS (stripL back))
                 (extractTagsS (stripL back)) bcc := by
      rw [generatePdfElems]
      simp only [hb, ne_eq, not_false_eq_true, if_true]
      exact ⟨_, _, List.append_assoc _ _ _⟩
    refine ⟨?_, fun _ => hstruct, fun h => absurd h hb⟩
    obtain ⟨fcc, bcc, heq⟩ := hstruct
    rw [heq]
    simp [hb]

/-- C6 witness: the structure applied to a concrete card with non-empty
back content. -/
theorem c6_pdf_structure_witness :
    ∃ fcc bcc,
      generatePdfElems "# F\n\nbody".toList " # B\n\nTags: #z ".toList false =
        sideElems "F".toList false (extractTitleS "# F\n\nbody".toList)
            (extractTagsS "# F\n\nbody".toList) fcc
          ++ PElem.pageBreak
          :: sideElems "B".toList false
               (extractTitleS (stripL " # B\n\nTags: #z ".toList))
               (extractTagsS (stripL " # B\n\nTags: #z ".toList)) bcc :=
  (c6_pdf_structure "# F\n\nbody".toList " # B\n\nTags: #z ".toList false).2.1 (by decide)

end Cardify

namespace Cardify

/-! ### Behaviour of the inline scanners on well-formed marker spans

These lemmas characterise `sub1`/`sub2` on texts assembled from marker
spans whose contents are free of markers and newlines — the shape on
which the spec describes the markdown-subset conversion. -/

theorem findClose1_of_clean (d : Char) (t : PyStr) (hd : d ≠ '\n') :
    ∀ x : PyStr, d ∉ x → '\n' ∉ x → findClose1 d (x ++ d :: t) = some (x, t) := by
  intro x
  induction x with
  | nil =>
    intro _ _
    simp [findClose1, hd]
  | cons c x' ih =>
    intro hx hn
    have hcd : c ≠ d := fun h => hx (h ▸ List.mem_cons_self c x')
    have hcn : c ≠ '\n' := fun h => hn (h ▸ List.mem_cons_self c x')
    simp only [List.cons_append, findClose1, if_neg hcn, if_neg hcd, List.append_eq,
      ih (fun h => hx (List.mem_cons_of_mem _ h)) (fun h => hn (List.mem_cons_of_mem _ h))]
    rfl

theorem findClose2_of_clean (d : Char) (t : PyStr) (hd : d ≠ '\n') :
    ∀ x : PyStr, d ∉ x → '\n' ∉ x → findClose2 d (x ++ d :: d :: t) = some (x, t) := by
  intro x
  induction x with
  | nil =>
    intro _ _
    simp [findClose2, hd]
  | cons c x' ih =>
    intro hx hn
    have hcd : c ≠ d := fun h => hx (h ▸ List.mem_cons_self c x')
    have hcn : c ≠ '\n' := fun h => hn (h ▸ List.mem_cons_self c x')
    have ih' := ih (fun h => hx (List.mem_cons_of_mem _ h))
      (fun h => hn (List.mem_cons_of_mem _ h))
    cases hL : x' ++ d :: d :: t with
    | nil => exact absurd hL (by simp)
    | cons l0 L' =>
      have hcontra : ¬ (c = d ∧ l0 = d) := fun hcon => hcd hcon.1
      simp only [List.cons_append, hL, findClose2, if_neg hcn, if_neg hcontra]
      rw [← hL, ih']
      rfl

theorem sub1_skip (d : Char) (pre post : PyStr) :
    ∀ s t : PyStr, d ∉ s → sub1 d pre post (s ++ t) = s ++ sub1 d pre post t := by
  intro s
  induction s with
  | nil => intro t _; simp
  | cons c s' ih =>
    intro t hs
    have hcd : c ≠ d := fun h => hs (h ▸ List.mem_cons_self c s')
    rw [List.cons_append, sub1, if_neg hcd, ih t (fun h => hs (List.mem_cons_of_mem _ h))]
    rfl

theorem sub1_span (d : Char) (pre post x t : PyStr) (hd : d ≠ '\n')
    (hx : d ∉ x) (hn : '\n' ∉ x) :
    sub1 d pre post (d :: (x ++ d :: t)) = pre ++ x ++ post ++ sub1 d pre post t := by
  rw [sub1, if_pos rfl, findClose1_of_clean d t hd x hx hn]
  have hdrop : (x ++ d :: t).drop (x.length + 1) = t := by
    have hsplit : x ++ d :: t = (x ++ [d]) ++ t := by simp
    rw [hsplit, List.drop_left' (by simp)]
  dsimp only
  rw [hdrop]

theorem sub2_skip (d : Char) (pre post : PyStr) :
    ∀ s t : PyStr, d ∉ s → sub2 d pre post (s ++ t) = s ++ sub2 d pre post t := by
  intro s
  induction s with
  | nil => intro t _; simp
  | cons c s' ih =>
    intro t hs
    have hcd : c ≠ d := fun h => hs (h ▸ List.mem_cons_self c s')
    have ih' := ih t (fun h => hs (List.mem_cons_of_mem _ h))
    cases hL : s' ++ t with
    | nil =>
      have hs' : s' = [] := by
        cases s' <;> simp_all
      have ht : t = [] := by
        cases t <;> simp_all
      subst hs'
      subst ht
      simp [sub2]
    | cons l0 L' =>
      rw [List.cons_append, hL, sub2, if_neg (fun hc => hcd hc.1), ← hL, ih']
      rfl

theorem sub2_span (d : Char) (pre post x t : PyStr) (hd : d ≠ '\n')
    (hx : d ∉ x) (hn : '\n' ∉ x) :
    sub2 d pre post (d :: d :: (x ++ d :: d :: t))
      = pre ++ x ++ post ++ sub2 d pre post t := by
  rw [sub2, if_pos ⟨rfl, rfl⟩, findClose2_of_clean d t hd x hx hn]
  have hdrop : (x ++ d :: d :: t).drop (x.length + 2) = t := by
    have hsplit : x ++ d :: d :: t = (x ++ [d, d]) ++ t := by simp
    rw [hsplit, List.drop_left' (by simp)]
  dsimp only
  rw [hdrop]

theorem sub2_single (d : Char) (pre post x t : PyStr)
    (hx : d ∉ x) (hxe : x ≠ []) (ht : t.head? ≠ some d) :
    sub2 d pre post (d :: (x ++ d :: t)) = d :: x ++ d :: sub2 d pre post t := by
  cases x with
  | nil => exact absurd rfl hxe
  | cons x0 x'' =>
    have hx0 : x0 ≠ d := fun h => hx (h ▸ List.mem_cons_self x0 x'')
    rw [show (d :: ((x0 :: x'') ++ d :: t)) = d :: x0 :: (x'' ++ d :: t) from rfl,
        sub2, if_neg (fun hc => hx0 hc.2)]
    have hskip : sub2 d pre post ((x0 :: x'') ++ (d :: t))
        = (x0 :: x'') ++ sub2 d pre post (d :: t) :=
      sub2_skip d pre post (x0 :: x'') (d :: t) hx
    rw [show x0 :: (x'' ++ d :: t) = (x0 :: x'') ++ (d :: t) from rfl, hskip]
    have hlast : sub2 d pre post (d :: t) = d :: sub2 d pre post t := by
      cases t with
      | nil => simp [sub2]
      | cons u t' =>
        have hu : u ≠ d := by
          intro h
          exact ht (by simp [h])
        rw [sub2, if_neg (fun hc => hu hc.2)]
    rw [hlast]
    rfl

end Cardify

namespace Cardify

/-! ### A segment view of the constrained markdown subset

A body built from plain runs and `**bold**`, `*italic*`, `` `code` ``
spans, with side conditions under which the non-recursive regex
substitutions behave as the spec describes them. -/

/-- One segment of a marker-structured body. -/
inductive Seg
  | plain (s : PyStr)
  | bold (x : PyStr)
  | ital (x : PyStr)
  | code (x : PyStr)
deriving DecidableEq, Repr

/-- The raw text of one segment. -/
def segRender : Seg → PyStr
  | Seg.plain s => s
  | Seg.bold x => "**".toList ++ x ++ "**".toList
  | Seg.ital x => "*".toList ++ x ++ "*".toList
  | Seg.code x => "`".toList ++ x ++ "`".toList

/-- The raw text of a segment list. -/
def segsRender (l : List Seg) : PyStr := (l.map segRender).flatten

/-- What the preview path leaves of a segment: markers stripped. -/
def segStrip : Seg → PyStr
  | Seg.plain s => s
  | Seg.bold x => x
  | Seg.ital x => x
  | Seg.code x => x

/-- What the PDF path makes of a segment: inline markup tags. -/
def segTag : Seg → PyStr
  | Seg.plain s => s
  | Seg.bold x => "<b>".toList ++ x ++ "</b>".toList
  | Seg.ital x => "<i>".toList ++ x ++ "</i>".toList
  | Seg.code x => "<code>".toList ++ x ++ "</code>".toList

/-- A plain run may not contain markers (newlines are fine). -/
def okPlain (s : PyStr) : Bool := decide ('*' ∉ s) && decide ('`' ∉ s)

/-- A span body may contain neither markers nor newlines (the lazy
groups `(.*?)` cannot cross a newline). -/
def okInner (x : PyStr) : Bool := okPlain x && decide ('\n' ∉ x)

/-- Well-formedness of a segment list: marker-free contents, non-empty
italic bodies, and no `*` directly after an italic span (there the
non-recursive substitutions misfire, which the spec accepts as
unhandled pathological input). -/
def wfSegs : List Seg → Bool
  | [] => true
  | Seg.plain s :: rest => okPlain s && wfSegs rest
  | Seg.bold x :: rest => okInner x && wfSegs rest
  | Seg.code x :: rest => okInner x && wfSegs rest
  | Seg.ital x :: rest =>
    okInner x && !x.isEmpty && decide ((segsRender rest).head? ≠ some '*') && wfSegs rest

/-- After the bold pass, intermediate well-formedness: no bold segment
remains. -/
def wfAfterBold : List Seg → Bool
  | [] => true
  | Seg.plain s :: rest => okPlain s && wfAfterBold rest
  | Seg.bold _ :: _ => false
  | Seg.code x :: rest => okInner x && wfAfterBold rest
  | Seg.ital x :: rest => okInner x && wfAfterBold rest

/-- After the italic pass: only plain and code segments remain. -/
def wfAfterItal : List Seg → Bool
  | [] => true
  | Seg.plain s :: rest => okPlain s && wfAfterItal rest
  | Seg.bold _ :: _ => false
  | Seg.ital _ :: _ => false
  | Seg.code x :: rest => okInner x && wfAfterItal rest

/-- The bold pass replaces each bold segment by a plain run. -/
def boldStep (pre post : PyStr) : Seg → Seg
  | Seg.bold x => Seg.plain (pre ++ x ++ post)
  | sg => sg

/-- The italic pass replaces each italic segment by a plain run. -/
def italStep (pre post : PyStr) : Seg → Seg
  | Seg.ital x => Seg.plain (pre ++ x ++ post)
  | sg => sg

/-- The code pass replaces each code segment by a plain run. -/
def codeStep (pre post : PyStr) : Seg → Seg
  | Seg.code x => Seg.plain (pre ++ x ++ post)
  | sg => sg

theorem okPlain_mem {s : PyStr} (h : okPlain s = true) : '*' ∉ s ∧ '`' ∉ s := by
  unfold okPlain at h
  simp only [Bool.and_eq_true, decide_eq_true_eq] at h
  exact h

theorem okInner_mem {x : PyStr} (h : okInner x = true) :
    '*' ∉ x ∧ '`' ∉ x ∧ '\n' ∉ x := by
  unfold okInner at h
  simp only [Bool.and_eq_true, decide_eq_true_eq] at h
  obtain ⟨h1, h2⟩ := h
  obtain ⟨h11, h12⟩ := okPlain_mem h1
  exact ⟨h11, h12, h2⟩

theorem segsRender_cons (sg : Seg) (rest : List Seg) :
    segsRender (sg :: rest) = segRender sg ++ segsRender rest := by
  simp [segsRender]

end Cardify

namespace Cardify

/-! ### Core lemmas about line splitting and joining -/

theorem splitNL_ne_nil : ∀ s : PyStr, splitNL s ≠ [] := by
  intro s
  induction s with
  | nil => simp [splitNL]
  | cons c cs ih =>
    by_cases hc : c = '\n'
    · subst hc; simp [splitNL]
    · simp only [splitNL]
      split <;> simp

theorem splitNL_cons_of_ne {c : Char} (cs : PyStr) (hc : c ≠ '\n') :
    splitNL (c :: cs) =
      match splitNL cs with
      | [] => [[c]]
      | l :: ls => (c :: l) :: ls := by
  rw [splitNL]
  exact fun h => hc h

end Cardify

namespace Cardify

theorem splitNL_append : ∀ a b : PyStr, splitNL (a ++ '\n' :: b) = splitNL a ++ splitNL b := by
  intro a b
  induction a with
  | nil => simp [splitNL]
  | cons c a' ih =>
    by_cases hc : c = '\n'
    · subst hc
      simp only [List.cons_append, splitNL, List.append_eq, ih]
    · rw [List.cons_append, splitNL_cons_of_ne _ hc, splitNL_cons_of_ne _ hc, ih]
      cases hsp : splitNL a' with
      | nil => exact absurd hsp (splitNL_ne_nil a')
      | cons l ls => simp

theorem splitNL_of_noNL : ∀ l : PyStr, '\n' ∉ l → splitNL l = [l] := by
  intro l
  induction l with
  | nil => intro _; rfl
  | cons c l' ih =>
    intro h
    have hc : c ≠ '\n' := fun hcc => h (hcc ▸ List.mem_cons_self c l')
    rw [splitNL_cons_of_ne _ hc, ih (fun hm => h (List.mem_cons_of_mem _ hm))]

theorem joinT_cons (l : PyStr) (ls : Lines) (h : ls ≠ []) :
    joinT (l :: ls) = l ++ '\n' :: joinT ls := by
  cases ls with
  | nil => exact absurd rfl h
  | cons l2 ls' => rfl

theorem splitNL_joinT : ∀ ls : Lines, ls ≠ [] → (∀ l ∈ ls, '\n' ∉ l) →
    splitNL (joinT ls) = ls := by
  intro ls
  induction ls with
  | nil => intro h _; exact absurd rfl h
  | cons l ls' ih =>
    intro _ hnl
    cases ls' with
    | nil =>
      show splitNL (joinT [l]) = [l]
      rw [show joinT [l] = l from rfl]
      exact splitNL_of_noNL l (hnl l (List.mem_cons_self l []))
    | cons l2 ls'' =>
      rw [joinT_cons _ _ (by simp), splitNL_append,
          splitNL_of_noNL l (hnl l (List.mem_cons_self _ _)),
          ih (by simp) (fun x hx => hnl x (List.mem_cons_of_mem _ hx))]
      rfl

theorem joinT_splitNL : ∀ s : PyStr, joinT (splitNL s) = s := by
  intro s
  induction s with
  | nil => rfl
  | cons c cs ih =>
    by_cases hc : c = '\n'
    · subst hc
      show joinT ([] :: splitNL cs) = '\n' :: cs
      rw [joinT_cons _ _ (splitNL_ne_nil cs), ih]
      rfl
    · rw [splitNL_cons_of_ne _ hc]
      cases hsp : splitNL cs with
      | nil => exact absurd hsp (splitNL_ne_nil cs)
      | cons l ls =>
        cases ls with
        | nil =>
          show joinT [c :: l] = c :: cs
          have : joinT [l] = cs := by rw [← hsp, ih]
          simp only [joinT] at this ⊢
          rw [this]
        | cons l2 ls' =>
          show joinT ((c :: l) :: l2 :: ls') = c :: cs
          rw [joinT_cons _ _ (by simp), List.cons_append]
          have : joinT (l :: l2 :: ls') = cs := by rw [← hsp, ih]
          rw [joinT_cons _ _ (by simp)] at this
          rw [this]

theorem splitNL_noNL : ∀ (s : PyStr) (l : PyStr), l ∈ splitNL s → '\n' ∉ l := by
  intro s
  induction s with
  | nil =>
    intro l hl
    simp [splitNL] at hl
    simp [hl]
  | cons c cs ih =>
    by_cases hc : c = '\n'
    · subst hc
      intro l hl
      simp only [splitNL, List.mem_cons] at hl
      rcases hl with rfl | hl
      · simp
      · exact ih l hl
    · intro l hl
      rw [splitNL_cons_of_ne _ hc] at hl
      cases hsp : splitNL cs with
      | nil => exact absurd hsp (splitNL_ne_nil cs)
      | cons x xs =>
        rw [hsp] at hl
        simp only [List.mem_cons] at hl
        rcases hl with rfl | hl
        · intro hmem
          rcases List.mem_cons.mp hmem with rfl | hmem2
          · exact hc rfl
          · exact ih x (hsp ▸ List.mem_cons_self x xs) hmem2
        · exact ih l (hsp ▸ List.mem_cons_of_mem _ hl)

end Cardify

namespace Cardify

theorem okPlain_append {a b : PyStr} (ha : okPlain a = true) (hb : okPlain b = true) :
    okPlain (a ++ b) = true := by
  obtain ⟨ha1, ha2⟩ := okPlain_mem ha
  obtain ⟨hb1, hb2⟩ := okPlain_mem hb
  unfold okPlain
  simp only [Bool.and_eq_true, decide_eq_true_eq, List.mem_append]
  exact ⟨fun h => h.elim ha1 hb1, fun h => h.elim ha2 hb2⟩

theorem okPlain_of_okInner {x : PyStr} (h : okInner x = true) : okPlain x = true := by
  unfold okInner at h
  exact (Bool.and_eq_true .. ▸ h).1

/-- The bold pass `re.sub(r'\*\*(.*?)\*\*', pre+group+post, ...)` on a
well-formed segment text rewrites exactly the bold segments. -/
theorem bold_pass (pre post : PyStr) (hpre : okPlain pre = true) (hpost : okPlain post = true) :
    ∀ segs : List Seg, wfSegs segs = true →
      sub2 '*' pre post (segsRender segs) = segsRender (segs.map (boldStep pre post)) ∧
      wfAfterBold (segs.map (boldStep pre post)) = true := by
  intro segs
  induction segs with
  | nil =>
    intro _
    exact ⟨by simp [segsRender, sub2], rfl⟩
  | cons sg rest ih =>
    intro hwf
    cases sg with
    | plain s =>
      simp only [wfSegs, Bool.and_eq_true] at hwf
      obtain ⟨hok, hrest⟩ := hwf
      obtain ⟨heq, hwfa⟩ := ih hrest
      constructor
      · rw [segsRender_cons, show segRender (Seg.plain s) = s from rfl,
            sub2_skip _ _ _ _ _ (okPlain_mem hok).1, heq, List.map_cons,
            show boldStep pre post (Seg.plain s) = Seg.plain s from rfl, segsRender_cons]
        rfl
      · simp only [List.map_cons, show boldStep pre post (Seg.plain s) = Seg.plain s from rfl,
          wfAfterBold, Bool.and_eq_true]
        exact ⟨hok, hwfa⟩
    | bold x =>
      simp only [wfSegs, Bool.and_eq_true] at hwf
      obtain ⟨hok, hrest⟩ := hwf
      obtain ⟨hx1, hx2, hx3⟩ := okInner_mem hok
      obtain ⟨heq, hwfa⟩ := ih hrest
      constructor
      · rw [segsRender_cons]
        have hshape : segRender (Seg.bold x) ++ segsRender rest
            = '*' :: '*' :: (x ++ '*' :: '*' :: segsRender rest) := by
          show ("**".toList ++ x ++ "**".toList) ++ segsRender rest = _
          simp
        rw [hshape, sub2_span '*' pre post x (segsRender rest) (by decide) hx1 hx3, heq,
            List.map_cons, show boldStep pre post (Seg.bold x) = Seg.plain (pre ++ x ++ post)
              from rfl, segsRender_cons]
        show pre ++ x ++ post ++ segsRender (rest.map _) = (pre ++ x ++ post) ++ _
        simp
      · simp only [List.map_cons,
          show boldStep pre post (Seg.bold x) = Seg.plain (pre ++ x ++ post) from rfl,
          wfAfterBold, Bool.and_eq_true]
        refine ⟨okPlain_append (okPlain_append hpre (okPlain_of_okInner hok)) hpost, hwfa⟩
    | ital x =>
      simp only [wfSegs, Bool.and_eq_true] at hwf
      obtain ⟨⟨⟨hok, hne⟩, hhead⟩, hrest⟩ := hwf
      obtain ⟨hx1, hx2, hx3⟩ := okInner_mem hok
      obtain ⟨heq, hwfa⟩ := ih hrest
      have hne' : x ≠ [] := by
        simpa using hne
      have hhead' : (segsRender rest).head? ≠ some '*' := by
        simpa using hhead
      constructor
      · rw [segsRender_cons]
        have hshape : segRender (Seg.ital x) ++ segsRender rest
            = '*' :: (x ++ '*' :: segsRender rest) := by
          show ("*".toList ++ x ++ "*".toList) ++ segsRender rest = _
          simp
        rw [hshape, sub2_single '*' pre post x (segsRender rest) hx1 hne' hhead', heq,
            List.map_cons, show boldStep pre post (Seg.ital x) = Seg.ital x from rfl,
            segsRender_cons]
        show '*' :: x ++ '*' :: segsRender (rest.map _) = ("*".toList ++ x ++ "*".toList) ++ _
        simp
      · simp only [List.map_cons, show boldStep pre post (Seg.ital x) = Seg.ital x from rfl,
          wfAfterBold, Bool.and_eq_true]
        exact ⟨hok, hwfa⟩
    | code x =>
      simp only [wfSegs, Bool.and_eq_true] at hwf
      obtain ⟨hok, hrest⟩ := hwf
      obtain ⟨hx1, hx2, hx3⟩ := okInner_mem hok
      obtain ⟨heq, hwfa⟩ := ih hrest
      constructor
      · rw [segsRender_cons]
        have hstar : '*' ∉ segRender (Seg.code x) := by
          show '*' ∉ "`".toList ++ x ++ "`".toList
          simp only [List.mem_append, List.mem_singleton]
          rintro ((h | h) | h)
          · simp at h
          · exact hx1 h
          · simp at h
        rw [sub2_skip _ _ _ _ _ hstar, heq, List.map_cons,
            show boldStep pre post (Seg.code x) = Seg.code x from rfl, segsRender_cons]
      · simp only [List.map_cons, show boldStep pre post (Seg.code x) = Seg.code x from rfl,
          wfAfterBold, Bool.and_eq_true]
        exact ⟨hok, hwfa⟩

end Cardify

namespace Cardify

/-- The italic pass `re.sub(r'\*(.*?)\*', ...)` on the output of the
bold pass rewrites exactly the italic segments. -/
theorem ital_pass (pre post : PyStr) (hpre : okPlain pre = true) (hpost : okPlain post = true) :
    ∀ segs : List Seg, wfAfterBold segs = true →
      sub1 '*' pre post (segsRender segs) = segsRender (segs.map (italStep pre post)) ∧
      wfAfterItal (segs.map (italStep pre post)) = true := by
  intro segs
  induction segs with
  | nil =>
    intro _
    exact ⟨by simp [segsRender, sub1], rfl⟩
  | cons sg rest ih =>
    intro hwf
    cases sg with
    | plain s =>
      simp only [wfAfterBold, Bool.and_eq_true] at hwf
      obtain ⟨hok, hrest⟩ := hwf
      obtain ⟨heq, hwfa⟩ := ih hrest
      constructor
      · rw [segsRender_cons, show segRender (Seg.plain s) = s from rfl,
            sub1_skip _ _ _ _ _ (okPlain_mem hok).1, heq, List.map_cons,
            show italStep pre post (Seg.plain s) = Seg.plain s from rfl, segsRender_cons]
        rfl
      · simp only [List.map_cons, show italStep pre post (Seg.plain s) = Seg.plain s from rfl,
          wfAfterItal, Bool.and_eq_true]
        exact ⟨hok, hwfa⟩
    | bold x => simp [wfAfterBold] at hwf
    | ital x =>
      simp only [wfAfterBold, Bool.and_eq_true] at hwf
      obtain ⟨hok, hrest⟩ := hwf
      obtain ⟨hx1, hx2, hx3⟩ := okInner_mem hok
      obtain ⟨heq, hwfa⟩ := ih hrest
      constructor
      · rw [segsRender_cons]
        have hshape : segRender (Seg.ital x) ++ segsRender rest
            = '*' :: (x ++ '*' :: segsRender rest) := by
          show ("*".toList ++ x ++ "*".toList) ++ segsRender rest = _
          simp
        rw [hshape, sub1_span '*' pre post x (segsRender rest) (by decide) hx1 hx3, heq,
            List.map_cons,
            show italStep pre post (Seg.ital x) = Seg.plain (pre ++ x ++ post) from rfl,
            segsRender_cons]
        show pre ++ x ++ post ++ segsRender (rest.map _) = (pre ++ x ++ post) ++ _
        simp
      · simp only [List.map_cons,
          show italStep pre post (Seg.ital x) = Seg.plain (pre ++ x ++ post) from rfl,
          wfAfterItal, Bool.and_eq_true]
        exact ⟨okPlain_append (okPlain_append hpre (okPlain_of_okInner hok)) hpost, hwfa⟩
    | code x =>
      simp only [wfAfterBold, Bool.and_eq_true] at hwf
      obtain ⟨hok, hrest⟩ := hwf
      obtain ⟨hx1, hx2, hx3⟩ := okInner_mem hok
      obtain ⟨heq, hwfa⟩ := ih hrest
      constructor
      · rw [segsRender_cons]
        have hstar : '*' ∉ segRender (Seg.code x) := by
          show '*' ∉ "`".toList ++ x ++ "`".toList
          simp only [List.mem_append, List.mem_singleton]
          rintro ((h | h) | h)
          · simp at h
          · exact hx1 h
          · simp at h
        rw [sub1_skip _ _ _ _ _ hstar, heq, List.map_cons,
            show italStep pre post (Seg.code x) = Seg.code x from rfl, segsRender_cons]
      · simp only [List.map_cons, show italStep pre post (Seg.code x) = Seg.code x from rfl,
          wfAfterItal, Bool.and_eq_true]
        exact ⟨hok, hwfa⟩

/-- The code pass `re.sub(r'`(.*?)`', ...)` rewrites exactly the code
segments. -/
theorem code_pass (pre post : PyStr) :
    ∀ segs : List Seg, wfAfterItal segs = true →
      sub1 '`' pre post (segsRender segs) = segsRender (segs.map (codeStep pre post)) := by
  intro segs
  induction segs with
  | nil => intro _; simp [segsRender, sub1]
  | cons sg rest ih =>
    intro hwf
    cases sg with
    | plain s =>
      simp only [wfAfterItal, Bool.and_eq_true] at hwf
      obtain ⟨hok, hrest⟩ := hwf
      rw [segsRender_cons, show segRender (Seg.plain s) = s from rfl,
          sub1_skip _ _ _ _ _ (okPlain_mem hok).2, ih hrest, List.map_cons,
          show codeStep pre post (Seg.plain s) = Seg.plain s from rfl, segsRender_cons]
      rfl
    | bold x => simp [wfAfterItal] at hwf
    | ital x => simp [wfAfterItal] at hwf
    | code x =>
      simp only [wfAfterItal, Bool.and_eq_true] at hwf
      obtain ⟨hok, hrest⟩ := hwf
      obtain ⟨hx1, hx2, hx3⟩ := okInner_mem hok
      rw [segsRender_cons]
      have hshape : segRender (Seg.code x) ++ segsRender rest
          = '`' :: (x ++ '`' :: segsRender rest) := by
        show ("`".toList ++ x ++ "`".toList) ++ segsRender rest = _
        simp
      rw [hshape, sub1_span '`' pre post x (segsRender rest) (by decide) hx2 hx3, ih hrest,
          List.map_cons,
          show codeStep pre post (Seg.code x) = Seg.plain (pre ++ x ++ post) from rfl,
          segsRender_cons]
      show pre ++ x ++ post ++ segsRender (rest.map _) = (pre ++ x ++ post) ++ _
      simp

end Cardify

namespace Cardify

/-! ### More strip lemmas -/

theorem lstripL_eq_self_of_head {s : PyStr}
    (h : ∀ c, s.head? = some c → ¬ isPySpace c) : lstripL s = s := by
  cases s with
  | nil => rfl
  | cons c cs => exact List.dropWhile_cons_of_neg (by simpa using h c rfl)

theorem rstripL_eq_self_of_getLast {s : PyStr}
    (h : ∀ c, s.getLast? = some c → ¬ isPySpace c) : rstripL s = s := by
  unfold rstripL
  have : s.reverse.dropWhile isPySpace = s.reverse := by
    cases hr : s.reverse with
    | nil => rfl
    | cons c cs =>
      have hlast : s.getLast? = some c := by
        rw [← List.head?_reverse, hr]
        rfl
      exact List.dropWhile_cons_of_neg (by simpa using h c hlast)
  rw [this, List.reverse_reverse]

theorem rstripL_pfx (s : PyStr) : rstripL s <+: s := by
  unfold rstripL
  rw [show s = s.reverse.reverse from (List.reverse_reverse s).symm]
  rw [List.reverse_prefix]
  simpa using List.dropWhile_suffix isPySpace

theorem rstripL_eq_self_of_stripL {s : PyStr} (h : stripL s = s) : rstripL s = s := by
  have hlen1 : (lstripL (rstripL s)).length ≤ (rstripL s).length :=
    ((List.dropWhile_suffix isPySpace).sublist).length_le
  have hlen2 : (rstripL s).length ≤ s.length := (rstripL_pfx s).sublist.length_le
  unfold stripL at h
  have : (rstripL s).length = s.length := by
    have := congrArg List.length h
    omega
  exact (rstripL_pfx s).eq_of_length this

theorem lstripL_eq_self_of_stripL {s : PyStr} (h : stripL s = s) : lstripL s = s := by
  have hr := rstripL_eq_self_of_stripL h
  unfold stripL at h
  rw [hr] at h
  exact h

theorem head_not_ws_of_stripL_eq {r : PyStr} (h : stripL r = r) :
    ∀ c, r.head? = some c → ¬ isPySpace c := by
  intro c hc hws
  have hl := lstripL_eq_self_of_stripL h
  cases r with
  | nil => simp at hc
  | cons a r' =>
    have hac : a = c := by simpa using hc
    have hwsa : isPySpace a = true := by rw [hac]; exact hws
    unfold lstripL at hl
    rw [List.dropWhile_cons_of_pos hwsa] at hl
    have hle : (r'.dropWhile isPySpace).length ≤ r'.length :=
      ((List.dropWhile_suffix isPySpace).sublist).length_le
    have hlen := congrArg List.length hl
    simp at hlen
    omega

theorem last_not_ws_of_stripL_eq {r : PyStr} (h : stripL r = r) :
    ∀ c, r.getLast? = some c → ¬ isPySpace c := by
  intro c hc hws
  have hr := rstripL_eq_self_of_stripL h
  unfold rstripL at hr
  cases hrev : r.reverse with
  | nil =>
    rw [← List.head?_reverse, hrev] at hc
    simp at hc
  | cons a rl =>
    have hac : a = c := by
      rw [← List.head?_reverse, hrev] at hc
      simpa using hc
    have hwsa : isPySpace a = true := by rw [hac]; exact hws
    rw [hrev, List.dropWhile_cons_of_pos hwsa] at hr
    have hle : (rl.dropWhile isPySpace).length ≤ rl.length :=
      ((List.dropWhile_suffix isPySpace).sublist).length_le
    have hlen2 : r.length = rl.length + 1 := by
      have h4 := congrArg List.length hrev
      simpa using h4
    have hlen3 := congrArg List.length hr
    simp at hlen3
    omega

theorem rstripL_decomp (s : PyStr) :
    ∃ w : PyStr, s = rstripL s ++ w ∧ ∀ c ∈ w, isPySpace c := by
  refine ⟨(s.reverse.takeWhile isPySpace).reverse, ?_, ?_⟩
  · have h0 := List.takeWhile_append_dropWhile isPySpace s.reverse
    calc s = s.reverse.reverse := (List.reverse_reverse s).symm
      _ = (s.reverse.takeWhile isPySpace ++ s.reverse.dropWhile isPySpace).reverse := by
            rw [h0]
      _ = (s.reverse.dropWhile isPySpace).reverse
            ++ (s.reverse.takeWhile isPySpace).reverse := by
            rw [List.reverse_append]
      _ = rstripL s ++ (s.reverse.takeWhile isPySpace).reverse := rfl
  · intro c hc
    exact List.mem_takeWhile_imp (List.mem_reverse.mp hc)

theorem lstripL_decomp (s : PyStr) :
    ∃ w : PyStr, s = w ++ lstripL s ∧ ∀ c ∈ w, isPySpace c := by
  refine ⟨s.takeWhile isPySpace, ?_, ?_⟩
  · exact (List.takeWhile_append_dropWhile isPySpace s).symm
  · intro c hc
    exact List.mem_takeWhile_imp hc

theorem stripL_ne_nil_of_mem {s : PyStr} {c : Char} (hc : c ∈ s) (hws : ¬ isPySpace c) :
    stripL s ≠ [] := by
  intro hnil
  unfold stripL at hnil
  obtain ⟨w1, hw1, hws1⟩ := lstripL_decomp (rstripL s)
  rw [hnil, List.append_nil] at hw1
  obtain ⟨w2, hw2, hws2⟩ := rstripL_decomp s
  rw [hw1] at hw2
  rw [hw2] at hc
  rcases List.mem_append.mp hc with h | h
  · exact hws (hws1 c h)
  · exact hws (hws2 c h)

end Cardify

namespace Cardify

theorem joinT_head? (l : PyStr) (ls : Lines) (hl : l ≠ []) :
    (joinT (l :: ls)).head? = l.head? := by
  cases ls with
  | nil => rfl
  | cons l2 ls' =>
    rw [joinT_cons _ _ (by simp), List.head?_append]
    cases l with
    | nil => exact absurd rfl hl
    | cons c cs => rfl

theorem joinT_getLast? : ∀ (ls : Lines) (m : PyStr), ls.getLast? = some m → m ≠ [] →
    (joinT ls).getLast? = m.getLast? := by
  intro ls
  induction ls with
  | nil => intro m h _; simp at h
  | cons l ls' ih =>
    intro m h hm
    cases ls' with
    | nil =>
      have : l = m := by simpa using h
      subst this
      rfl
    | cons l2 ls'' =>
      have hrec : (l2 :: ls'').getLast? = some m := by
        rw [← h]
        exact (List.getLast?_cons_cons ..).symm
      have hJ : (joinT (l2 :: ls'')).getLast? = m.getLast? := ih m hrec hm
      have hJne : joinT (l2 :: ls'') ≠ [] := by
        intro hnil
        rw [hnil] at hJ
        cases m with
        | nil => exact hm rfl
        | cons a as => simp [List.getLast?] at hJ
      rw [joinT_cons _ _ (by simp), List.getLast?_append]
      have : ('\n' :: joinT (l2 :: ls'')).getLast? = m.getLast? := by
        cases hj : joinT (l2 :: ls'') with
        | nil => exact absurd hj hJne
        | cons a as =>
          rw [← hj, show ('\n' :: joinT (l2 :: ls'')).getLast?
              = (['\n'] ++ joinT (l2 :: ls'')).getLast? from rfl, List.getLast?_append, hj]
          simp only [← hj, hJ]
          cases m with
          | nil => exact absurd rfl hm
          | cons b bs =>
            have : (b :: bs).getLast? = some ((b :: bs).getLast (by simp)) :=
              List.getLast?_eq_getLast _ _
            rw [this]
            rfl
      rw [this]
      cases m with
      | nil => exact absurd rfl hm
      | cons b bs =>
        have h5 : (b :: bs).getLast? = some ((b :: bs).getLast (by simp)) :=
          List.getLast?_eq_getLast _ _
        rw [h5]
        rfl

theorem mem_joinT : ∀ (ls : Lines) (c : Char), c ∈ joinT ls → c = '\n' ∨ ∃ l ∈ ls, c ∈ l := by
  intro ls
  induction ls with
  | nil => intro c hc; simp [joinT] at hc
  | cons l ls' ih =>
    intro c hc
    cases ls' with
    | nil =>
      right
      exact ⟨l, List.mem_cons_self _ _, hc⟩
    | cons l2 ls'' =>
      rw [joinT_cons _ _ (by simp)] at hc
      rcases List.mem_append.mp hc with h | h
      · exact Or.inr ⟨l, List.mem_cons_self _ _, h⟩
      · rcases List.mem_cons.mp h with rfl | h2
        · exact Or.inl rfl
        · rcases ih c h2 with h3 | ⟨x, hx, hcx⟩
          · exact Or.inl h3
          · exact Or.inr ⟨x, List.mem_cons_of_mem _ hx, hcx⟩

end Cardify

namespace Cardify

theorem mem_joinT_of_mem : ∀ (ls : Lines) (l : PyStr) (c : Char),
    l ∈ ls → c ∈ l → c ∈ joinT ls := by
  intro ls
  induction ls with
  | nil => intro l c hl _; simp at hl
  | cons x ls' ih =>
    intro l c hl hc
    cases ls' with
    | nil =>
      rcases List.mem_cons.mp hl with rfl | h
      · exact hc
      · simp at h
    | cons y ls'' =>
      rw [joinT_cons _ _ (by simp)]
      rcases List.mem_cons.mp hl with rfl | h
      · exact List.mem_append.mpr (Or.inl hc)
      · exact List.mem_append.mpr (Or.inr (List.mem_cons_of_mem _ (ih l c h hc)))

theorem sub2_nil (d : Char) (pre post : PyStr) : sub2 d pre post [] = [] := by
  simp [sub2]

theorem sub1_nil (d : Char) (pre post : PyStr) : sub1 d pre post [] = [] := by
  simp [sub1]

theorem sub2_noop {d : Char} {s : PyStr} (pre post : PyStr) (h : d ∉ s) :
    sub2 d pre post s = s := by
  have := sub2_skip d pre post s [] h
  simpa [sub2_nil] using this

theorem sub1_noop {d : Char} {s : PyStr} (pre post : PyStr) (h : d ∉ s) :
    sub1 d pre post s = s := by
  have := sub1_skip d pre post s [] h
  simpa [sub1_nil] using this

theorem filterMap_all_some {α β : Type} {f : α → Option β} {g : α → β} :
    ∀ l : List α, (∀ a ∈ l, f a = some (g a)) → l.filterMap f = l.map g := by
  intro l
  induction l with
  | nil => intro _; rfl
  | cons x xs ih =>
    intro h
    rw [List.filterMap_cons, h x (List.mem_cons_self _ _), List.map_cons,
        ih (fun a ha => h a (List.mem_cons_of_mem _ ha))]

/-- C7 (amended): on marker-structured bodies the preview transform
strips each `**x**`, `*x*` and backtick span to the bare `x`, and the
PDF transform rewrites the same spans to `<b>x</b>`, `<i>x</i>` and
`<code>x</code>` tags — but only in non-bullet paragraphs.  Lines
starting `- ` are rewritten to `• `-prefixed lines by the preview and to
`• `-prefixed bullet paragraphs by the PDF path; inside a PDF bullet
paragraph the inline markers are left untouched (see the
counterexample). -/
theorem c7_amended :
    (∀ segs : List Seg, wfSegs segs = true →
       previewInline (segsRender segs) = (segs.map segStrip).flatten ∧
       pdfInline (segsRender segs) = (segs.map segTag).flatten) ∧
    (∀ rs : Lines, rs ≠ [] →
       (∀ r ∈ rs, okPlain r = true ∧ '\n' ∉ r ∧ r ≠ [] ∧ stripL r = r) →
       previewTransform (joinT (rs.map fun r => "- ".toList ++ r))
         = joinT (rs.map fun r => "• ".toList ++ r)) ∧
    (∀ rs : Lines, rs ≠ [] → (∀ r ∈ rs, '\n' ∉ r) →
       pdfParagraphElems (joinT (rs.map fun r => "- ".toList ++ r))
         = rs.map fun r => PElem.para ("• ".toList ++ stripL r) PStyle.content) := by
  refine ⟨?_, ?_, ?_⟩
  · -- the inline passes
    intro segs hwf
    constructor
    · have h1 := bold_pass [] [] (by decide) (by decide) segs hwf
      have h2 := ital_pass [] [] (by decide) (by decide) _ h1.2
      have h3 := code_pass [] [] _ h2.2
      unfold previewInline
      rw [h1.1, h2.1, h3]
      unfold segsRender
      rw [List.map_map, List.map_map, List.map_map]
      congr 1
      apply List.map_congr_left
      intro sg _
      cases sg <;> simp [boldStep, italStep, codeStep, segRender, segStrip]
    · have h1 := bold_pass "<b>".toList "</b>".toList (by decide) (by decide) segs hwf
      have h2 := ital_pass "<i>".toList "</i>".toList (by decide) (by decide) _ h1.2
      have h3 := code_pass "<code>".toList "</code>".toList _ h2.2
      unfold pdfInline
      rw [h1.1, h2.1, h3]
      unfold segsRender
      rw [List.map_map, List.map_map, List.map_map]
      congr 1
      apply List.map_congr_left
      intro sg _
      cases sg <;> simp [boldStep, italStep, codeStep, segRender, segTag]
  · -- the preview bullet conversion
    intro rs hne hcond
    set L : Lines := rs.map (fun r => "- ".toList ++ r) with hL
    have hLne : L ≠ [] := by simp [hL, hne]
    have hnoNL : ∀ l ∈ L, '\n' ∉ l := by
      intro l hl
      rw [hL, List.mem_map] at hl
      obtain ⟨r, hr, rfl⟩ := hl
      intro hmem
      rcases List.mem_append.mp hmem with h | h
      · simp at h
      · exact (hcond r hr).2.1 h
    have hstar : '*' ∉ joinT L := by
      intro hmem
      rcases mem_joinT L '*' hmem with h | ⟨l, hl, hcl⟩
      · simp at h
      · rw [hL, List.mem_map] at hl
        obtain ⟨r, hr, rfl⟩ := hl
        rcases List.mem_append.mp hcl with h | h
        · simp at h
        · exact (okPlain_mem (hcond r hr).1).1 h
    have htick : '`' ∉ joinT L := by
      intro hmem
      rcases mem_joinT L '`' hmem with h | ⟨l, hl, hcl⟩
      · simp at h
      · rw [hL, List.mem_map] at hl
        obtain ⟨r, hr, rfl⟩ := hl
        rcases List.mem_append.mp hcl with h | h
        · simp at h
        · exact (okPlain_mem (hcond r hr).1).2 h
    have hstrip : stripL (joinT L) = joinT L := by
      have hhead : ∀ c, (joinT L).head? = some c → ¬ isPySpace c := by
        intro c hc
        cases hrs : rs with
        | nil => exact absurd hrs hne
        | cons r0 rs' =>
          rw [hL, hrs, List.map_cons, joinT_head? _ _ (by simp)] at hc
          have : c = '-' := by
            simpa using hc.symm
          subst this
          decide
      have hlast : ∀ c, (joinT L).getLast? = some c → ¬ isPySpace c := by
        intro c hc
        have hm : rs.getLast? = some (rs.getLast hne) := List.getLast?_eq_getLast rs hne
        have hmmem : rs.getLast hne ∈ rs := List.getLast_mem hne
        obtain ⟨hok, hnl, hmne, hmstrip⟩ := hcond _ hmmem
        have hLlast : L.getLast? = some ("- ".toList ++ rs.getLast hne) := by
          rw [hL, List.getLast?_map, hm]
          rfl
        rw [joinT_getLast? L _ hLlast (by simp)] at hc
        have hc2 : (rs.getLast hne).getLast? = some c := by
          rw [List.getLast?_append] at hc
          cases hg : (rs.getLast hne).getLast? with
          | none =>
            rw [List.getLast?_eq_getLast _ hmne] at hg
            simp at hg
          | some x =>
            rw [hg] at hc
            simpa using hc
        exact last_not_ws_of_stripL_eq hmstrip c hc2
      unfold stripL
      rw [rstripL_eq_self_of_getLast hlast, lstripL_eq_self_of_head hhead]
    have hinline : previewInline (joinT L) = joinT L := by
      unfold previewInline
      rw [sub2_noop _ _ hstar, sub1_noop _ _ hstar, sub1_noop _ _ htick]
    unfold previewTransform
    rw [hstrip, hinline, splitNL_joinT L hLne hnoNL, hL, List.map_map]
    congr 1
    apply List.map_congr_left
    intro r _
    show bulletLine ("- ".toList ++ r) = "• ".toList ++ r
    unfold bulletLine
    rw [if_pos (by rw [List.isPrefixOf_iff_prefix]; exact List.prefix_append _ _),
        List.drop_left' (by decide)]
  · -- the PDF bullet paragraphs
    intro rs hne hcond
    set L : Lines := rs.map (fun r => "- ".toList ++ r) with hL
    have hLne : L ≠ [] := by simp [hL, hne]
    have hnoNL : ∀ l ∈ L, '\n' ∉ l := by
      intro l hl
      rw [hL, List.mem_map] at hl
      obtain ⟨r, hr, rfl⟩ := hl
      intro hmem
      rcases List.mem_append.mp hmem with h | h
      · simp at h
      · exact hcond r hr h
    obtain ⟨r0, rs', rfl⟩ : ∃ r0 rs', rs = r0 :: rs' := by
      cases rs with
      | nil => exact absurd rfl hne
      | cons a b => exact ⟨a, b, rfl⟩
    have hdash : '-' ∈ joinT L := by
      apply mem_joinT_of_mem L ("- ".toList ++ r0) '-'
      · rw [hL, List.map_cons]
        exact List.mem_cons_self _ _
      · simp
    have hJpre : ∃ tail, joinT L = "- ".toList ++ tail := by
      rw [hL, List.map_cons]
      cases hrs' : rs'.map (fun r => "- ".toList ++ r) with
      | nil => exact ⟨r0, rfl⟩
      | cons y ys =>
        rw [joinT_cons _ _ (by simp)]
        exact ⟨r0 ++ '\n' :: joinT (y :: ys), by simp⟩
    unfold pdfParagraphElems
    rw [if_neg (stripL_ne_nil_of_mem hdash (by decide))]
    obtain ⟨tail, htail⟩ := hJpre
    rw [if_pos (by rw [htail, List.isPrefixOf_iff_prefix]; exact List.prefix_append _ _)]
    rw [splitNL_joinT L hLne hnoNL, hL]
    rw [List.filterMap_map]
    apply filterMap_all_some
    intro r _
    have hpre : ("- ".toList.isPrefixOf ("- ".toList ++ r)) = true := by
      rw [List.isPrefixOf_iff_prefix]
      exact List.prefix_append _ _
    show (if "- ".toList.isPrefixOf ("- ".toList ++ r) then
        some (PElem.para ("• ".toList ++ stripL (("- ".toList ++ r).drop 2)) PStyle.content)
      else none) = _
    rw [if_pos hpre, List.drop_left' (by decide)]

end Cardify

namespace Cardify

/-- C7 counterexample.  On the body `"- **x**"` the preview strips the
bold markers and bullets the line (`"• x"`), but the PDF path takes the
bullet branch, which skips the inline substitutions entirely: the
produced paragraph still carries the raw `**x**`, not `<b>x</b>` — so
the PDF transform does not rewrite the same spans as the preview. -/
theorem c7_counterexample :
    previewTransform "- **x**".toList = "• x".toList ∧
    pdfParagraphElems "- **x**".toList = [PElem.para "• **x**".toList PStyle.content] ∧
    pdfParagraphElems "- **x**".toList ≠ [PElem.para "• <b>x</b>".toList PStyle.content] := by
  refine ⟨?_, by decide, by decide⟩
  simp [previewTransform, previewInline, stripL, lstripL, rstripL, isPySpace, sub2, findClose2,
        sub1, findClose1, splitNL, joinT, bulletLine, List.isPrefixOf]

/-- C7 witness: the amended statement applied to a concrete segment
body and concrete bullet lists. -/
theorem c7_amended_witness :
    (previewInline (segsRender [Seg.plain "a ".toList, Seg.bold "B".toList,
        Seg.plain " ".toList, Seg.ital "i".toList, Seg.plain " ".toList,
        Seg.code "c".toList])
      = ([Seg.plain "a ".toList, Seg.bold "B".toList, Seg.plain " ".toList,
          Seg.ital "i".toList, Seg.plain " ".toList, Seg.code "c".toList].map segStrip).flatten ∧
     pdfInline (segsRender [Seg.plain "a ".toList, Seg.bold "B".toList,
        Seg.plain " ".toList, Seg.ital "i".toList, Seg.plain " ".toList,
        Seg.code "c".toList])
      = ([Seg.plain "a ".toList, Seg.bold "B".toList, Seg.plain " ".toList,
          Seg.ital "i".toList, Seg.plain " ".toList, Seg.code "c".toList].map segTag).flatten) ∧
    previewTransform (joinT (["one".toList, "two".toList].map fun r => "- ".toList ++ r))
      = joinT (["one".toList, "two".toList].map fun r => "• ".toList ++ r) ∧
    pdfParagraphElems (joinT (["x y".toList].map fun r => "- ".toList ++ r))
      = ["x y".toList].map fun r => PElem.para ("• ".toList ++ stripL r) PStyle.content := by
  refine ⟨c7_amended.1 _ (by decide), c7_amended.2.1 _ (by decide) (by decide),
         c7_amended.2.2 _ (by decide) (by decide)⟩

end Cardify

namespace Cardify

/-! ### Splitting concatenations into lines -/

/-- Concatenating two strings merges the last line of the first with
the first line of the second. -/
theorem splitNL_concat : ∀ (a b : PyStr) (A : Lines) (la hb : PyStr) (B : Lines),
    splitNL a = A ++ [la] → splitNL b = hb :: B →
    splitNL (a ++ b) = A ++ (la ++ hb) :: B := by
  intro a
  induction a with
  | nil =>
    intro b A la hb B ha hbeq
    have ha2 : ([[]] : Lines) = A ++ [la] := ha
    cases A with
    | nil =>
      have hla : la = [] := by simpa using ha2.symm
      subst hla
      simpa using hbeq
    | cons x xs =>
      exfalso
      rw [List.cons_append] at ha2
      injection ha2 with i1 i2
      exact List.append_ne_nil_of_right_ne_nil xs (by simp) i2.symm
  | cons c a' ih =>
    intro b A la hb B ha hbeq
    by_cases hc : c = '\n'
    · subst hc
      have ha2 : ([] : PyStr) :: splitNL a' = A ++ [la] := ha
      cases A with
      | nil =>
        exfalso
        have : splitNL a' = [] := by
          have h3 : ([] : PyStr) :: splitNL a' = [la] := by simpa using ha2
          injection h3 with i1 i2
        exact splitNL_ne_nil a' this
      | cons A0 A' =>
        rw [List.cons_append] at ha2
        injection ha2 with i1 i2
        subst i1
        show ([] : PyStr) :: splitNL (a' ++ b) = _
        rw [ih b A' la hb B i2 hbeq]
        rfl
    · rw [splitNL_cons_of_ne _ hc] at ha
      cases hsp : splitNL a' with
      | nil => exact absurd hsp (splitNL_ne_nil a')
      | cons h t =>
        rw [hsp] at ha
        cases t with
        | nil =>
          have ha2 : ([c :: h] : Lines) = A ++ [la] := ha
          cases A with
          | nil =>
            have hla : la = c :: h := by simpa using ha2.symm
            subst hla
            have hrec := ih b [] h hb B (by simp [hsp]) hbeq
            rw [List.cons_append, splitNL_cons_of_ne _ hc, hrec]
            simp
          | cons x xs =>
            exfalso
            rw [List.cons_append] at ha2
            injection ha2 with i1 i2
            exact List.append_ne_nil_of_right_ne_nil xs (by simp) i2.symm
        | cons t0 t' =>
          have ha2 : (c :: h) :: t0 :: t' = A ++ [la] := ha
          cases A with
          | nil =>
            exfalso
            have h3 : (c :: h) :: t0 :: t' = [la] := by simpa using ha2
            injection h3 with i1 i2
            exact (List.cons_ne_nil _ _) i2
          | cons A0 A' =>
            rw [List.cons_append] at ha2
            injection ha2 with i1 i2
            subst i1
            have hrec := ih b (h :: A') la hb B (by rw [hsp, i2]; rfl) hbeq
            rw [List.cons_append, splitNL_cons_of_ne _ hc]
            cases hsp2 : splitNL (a' ++ b) with
            | nil => exact absurd hsp2 (splitNL_ne_nil _)
            | cons u us =>
              rw [hsp2] at hrec
              rw [List.cons_append] at hrec
              injection hrec with j1 j2
              subst j1
              rw [j2]
              rfl

end Cardify

namespace Cardify

/-! ### The newline-run collapse preserves the non-empty lines -/

/-- Predicate for characters other than the newline. -/
def notNL (c : Char) : Bool := decide (c ≠ '\n')

/-- The sequence of non-empty lines of a string, computed directly. -/
def blocks : PyStr → Lines
  | [] => []
  | '\n' :: cs => blocks cs
  | c :: cs => (c :: cs.takeWhile notNL) :: blocks (cs.dropWhile notNL)
termination_by s => s.length
decreasing_by
  · simp
  · have := (List.dropWhile_suffix notNL (l := cs)).sublist.length_le
    simp
    omega

theorem blocks_cons_of_ne {c : Char} (cs : PyStr) (hc : c ≠ '\n') :
    blocks (c :: cs) = (c :: cs.takeWhile notNL) :: blocks (cs.dropWhile notNL) := by
  rw [blocks]
  exact fun h => hc h

theorem dropWhile_head_false {α : Type} {p : α → Bool} :
    ∀ {l : List α} {c : α} {cs : List α}, l.dropWhile p = c :: cs → p c = false := by
  intro l
  induction l with
  | nil => intro c cs h; simp at h
  | cons x xs ih =>
    intro c cs h
    rw [List.dropWhile_cons] at h
    split at h
    · exact ih h
    · injection h with h1 h2
      subst h1
      simp_all

theorem blocks_nil : blocks [] = [] := by
  rw [blocks]

theorem blocks_cons_nl (cs : PyStr) : blocks ('\n' :: cs) = blocks cs := by
  rw [blocks]

theorem filter_splitNL_eq_blocks : ∀ (n : ℕ) (s : PyStr), s.length ≤ n →
    (splitNL s).filter (fun l => decide (l ≠ [])) = blocks s := by
  intro n
  induction n with
  | zero =>
    intro s hs
    have hnil : s = [] := by
      cases s with
      | nil => rfl
      | cons c cs => simp at hs
    subst hnil
    rw [blocks_nil]
    rfl
  | succ m ih =>
    intro s hs
    cases s with
    | nil =>
      rw [blocks_nil]
      rfl
    | cons c cs =>
      by_cases hc : c = '\n'
      · subst hc
        show ((([] : PyStr) :: splitNL cs).filter fun l => decide (l ≠ [])) = blocks ('\n' :: cs)
        rw [List.filter_cons, blocks_cons_nl]
        have hcond : (decide (([] : PyStr) ≠ [])) = false := by simp
        rw [hcond, if_neg (by simp)]
        exact ih cs (by simpa using hs)
      · rw [splitNL_cons_of_ne _ hc, blocks_cons_of_ne _ hc]
        cases hsp : splitNL cs with
        | nil => exact absurd hsp (splitNL_ne_nil cs)
        | cons h t =>
          have hdecomp : splitNL cs = cs.takeWhile notNL ::
              (match cs.dropWhile notNL with
               | [] => ([] : Lines)
               | _ :: r => splitNL r) := by
            clear hsp ih hs
            induction cs with
            | nil => rfl
            | cons d ds ihd =>
              by_cases hd : d = '\n'
              · subst hd
                show ([] : PyStr) :: splitNL ds = _
                rw [List.takeWhile_cons_of_neg (by simp [notNL]),
                    List.dropWhile_cons_of_neg (by simp [notNL])]
              · rw [splitNL_cons_of_ne _ hd, ihd,
                    List.takeWhile_cons_of_pos (by simp [notNL, hd]),
                    List.dropWhile_cons_of_pos (by simp [notNL, hd])]
          rw [hsp] at hdecomp
          injection hdecomp with hh ht
          subst hh
          rw [List.filter_cons, if_pos (by simp)]
          congr 1
          cases hdw : cs.dropWhile notNL with
          | nil =>
            rw [hdw] at ht
            subst ht
            rw [blocks_nil]
            rfl
          | cons d0 d' =>
            rw [hdw] at ht
            subst ht
            have hd0 : d0 = '\n' := by
              have hfalse := dropWhile_head_false hdw
              simpa [notNL] using hfalse
            subst hd0
            have hlen : d'.length ≤ m := by
              have h1 := (List.dropWhile_suffix notNL (l := cs)).sublist.length_le
              rw [hdw] at h1
              simp at h1 hs
              omega
            rw [blocks_cons_nl]
            exact ih d' hlen

end Cardify

namespace Cardify

theorem blocks_replicate_nl : ∀ (m : ℕ) (x : PyStr),
    blocks (List.replicate m '\n' ++ x) = blocks x := by
  intro m
  induction m with
  | zero => intro x; rfl
  | succ k ih =>
    intro x
    rw [List.replicate_succ, List.cons_append, blocks_cons_nl, ih]

theorem collapseGo_cons (k : ℕ) (c : Char) (cs : PyStr) :
    collapseGo k (c :: cs) = if c = '\n' then collapseGo (k + 1) cs
      else List.replicate (if 3 ≤ k then 2 else k) '\n' ++ c :: collapseGo 0 cs := rfl

theorem collapseGo0_decomp : ∀ s : PyStr,
    collapseGo 0 s = s.takeWhile notNL ++ collapseGo 0 (s.dropWhile notNL) := by
  intro s
  induction s with
  | nil => rfl
  | cons c cs ih =>
    by_cases hc : c = '\n'
    · subst hc
      rw [List.takeWhile_cons_of_neg (by simp [notNL]),
          List.dropWhile_cons_of_neg (by simp [notNL])]
      rfl
    · rw [List.takeWhile_cons_of_pos (by simp [notNL, hc]),
          List.dropWhile_cons_of_pos (by simp [notNL, hc]),
          collapseGo_cons, if_neg hc]
      simp only [Nat.le_zero, List.replicate, List.nil_append, List.cons_append]
      rw [ih]

theorem collapseGo_pos_head : ∀ (s : PyStr) (k : ℕ), 1 ≤ k →
    ∃ r, collapseGo k s = '\n' :: r := by
  intro s
  induction s with
  | nil =>
    intro k hk
    obtain ⟨j, hj⟩ : ∃ j, (if 3 ≤ k then 2 else k) = j + 1 := by
      refine ⟨(if 3 ≤ k then 2 else k) - 1, ?_⟩
      split <;> omega
    refine ⟨List.replicate j '\n', ?_⟩
    show List.replicate (if 3 ≤ k then 2 else k) '\n' = _
    rw [hj, List.replicate_succ]
  | cons c cs ih =>
    intro k hk
    by_cases hc : c = '\n'
    · subst hc
      show ∃ r, collapseGo (k + 1) cs = '\n' :: r
      exact ih (k + 1) (by omega)
    · obtain ⟨j, hj⟩ : ∃ j, (if 3 ≤ k then 2 else k) = j + 1 := by
        refine ⟨(if 3 ≤ k then 2 else k) - 1, ?_⟩
        split <;> omega
      refine ⟨List.replicate j '\n' ++ c :: collapseGo 0 cs, ?_⟩
      rw [collapseGo_cons, if_neg hc, hj, List.replicate_succ]
      rfl

theorem blocks_collapseGo : ∀ (n : ℕ) (s : PyStr), s.length ≤ n → ∀ k : ℕ,
    blocks (collapseGo k s) = blocks s := by
  intro n
  induction n with
  | zero =>
    intro s hs k
    have hnil : s = [] := by
      cases s with
      | nil => rfl
      | cons c cs => simp at hs
    subst hnil
    show blocks (List.replicate (if 3 ≤ k then 2 else k) '\n') = blocks []
    rw [show List.replicate (if 3 ≤ k then 2 else k) '\n'
        = List.replicate (if 3 ≤ k then 2 else k) '\n' ++ [] from by simp,
      blocks_replicate_nl]
  | succ m ih =>
    intro s hs k
    cases s with
    | nil =>
      show blocks (List.replicate (if 3 ≤ k then 2 else k) '\n') = blocks []
      rw [show List.replicate (if 3 ≤ k then 2 else k) '\n'
          = List.replicate (if 3 ≤ k then 2 else k) '\n' ++ [] from by simp,
        blocks_replicate_nl]
    | cons c cs =>
      by_cases hc : c = '\n'
      · subst hc
        show blocks (collapseGo (k + 1) cs) = blocks ('\n' :: cs)
        rw [blocks_cons_nl]
        exact ih cs (by simpa using hs) (k + 1)
      · rw [collapseGo_cons, if_neg hc, blocks_replicate_nl, blocks_cons_of_ne _ hc,
            blocks_cons_of_ne _ hc]
        have hsat : ∀ a ∈ cs.takeWhile notNL, notNL a = true := fun a ha =>
          List.mem_takeWhile_imp ha
        cases hdw : cs.dropWhile notNL with
        | nil =>
          rw [collapseGo0_decomp cs, hdw]
          rw [show collapseGo 0 [] = [] from rfl, List.append_nil, List.takeWhile_idem,
              List.dropWhile_eq_nil_iff.mpr (fun a ha => List.mem_takeWhile_imp ha)]
        | cons d0 d' =>
          have hd0 : d0 = '\n' := by
            have hfalse := dropWhile_head_false hdw
            simpa [notNL] using hfalse
          subst hd0
          obtain ⟨r, hr⟩ := collapseGo_pos_head d' 1 (by omega)
          have hX : collapseGo 0 ('\n' :: d') = '\n' :: r := hr
          rw [collapseGo0_decomp cs, hdw, hX]
          have hlen2 : ('\n' :: d').length ≤ m := by
            have h1 := (List.dropWhile_suffix notNL (l := cs)).sublist.length_le
            rw [hdw] at h1
            simp only [List.length_cons] at h1 hs ⊢
            omega
          rw [List.cons.injEq]
          constructor
          · rw [List.takeWhile_append_of_pos hsat,
                List.takeWhile_cons_of_neg (by simp [notNL]), List.append_nil]
          · have hdrop : (cs.takeWhile notNL ++ '\n' :: r).dropWhile notNL
                = '\n' :: r := by
              rw [List.dropWhile_append]
              split
              · rw [List.dropWhile_cons_of_neg (by simp [notNL])]
              · rename_i hne
                exfalso
                rw [List.dropWhile_eq_nil_iff.mpr
                  (fun a ha => List.mem_takeWhile_imp ha)] at hne
                simp at hne
            rw [hdrop]
            calc blocks ('\n' :: r) = blocks (collapseGo 0 ('\n' :: d')) := by rw [hX]
              _ = blocks ('\n' :: d') := ih ('\n' :: d') hlen2 0

end Cardify

namespace Cardify

/-! ### Whitespace and idempotence facts about the string strips -/

theorem stripL_append_ws (x w : PyStr) (hw : ∀ c ∈ w, isPySpace c) :
    stripL (x ++ w) = stripL x := by
  unfold stripL
  rw [rstripL_append_ws x w hw]

theorem lstripL_head_not_ws {c : Char} {cs : PyStr}
    (h : lstripL (c :: cs) = c :: cs) : isPySpace c = false := by
  by_contra hby
  have hws : isPySpace c = true := by
    cases hcc : isPySpace c
    · exact absurd hcc hby
    · rfl
  unfold lstripL at h
  rw [List.dropWhile_cons_of_pos hws] at h
  have hle : (cs.dropWhile isPySpace).length ≤ cs.length :=
    ((List.dropWhile_suffix isPySpace).sublist).length_le
  have := congrArg List.length h
  simp at this
  omega

theorem allws_stripL_nil (s : PyStr) (h : ∀ c ∈ s, isPySpace c) : stripL s = [] := by
  unfold stripL lstripL
  rw [List.dropWhile_eq_nil_iff.mpr]
  intro a ha
  have hmem : a ∈ s := (rstripL_pfx s).sublist.mem ha
  exact h a hmem

theorem exists_not_ws_of_stripL_ne {s : PyStr} (h : stripL s ≠ []) :
    ∃ c ∈ s, isPySpace c = false := by
  by_contra hby
  push_neg at hby
  refine h (allws_stripL_nil s ?_)
  intro c hc
  cases hcc : isPySpace c
  · exact absurd hcc (hby c hc)
  · rfl

theorem mem_of_mem_stripL {s : PyStr} {c : Char} (h : c ∈ stripL s) : c ∈ s := by
  unfold stripL lstripL at h
  have h1 : c ∈ rstripL s := (List.dropWhile_suffix isPySpace).sublist.mem h
  exact (rstripL_pfx s).sublist.mem h1

theorem stripL_idem (s : PyStr) : stripL (stripL s) = stripL s := by
  have hl : lstripL (stripL s) = stripL s := by
    unfold stripL lstripL
    cases hd : (rstripL s).dropWhile isPySpace with
    | nil => rfl
    | cons c cs =>
      rw [List.dropWhile_cons_of_neg]
      rw [dropWhile_head_false hd]
      simp
  have hr : rstripL (stripL s) = stripL s := by
    apply rstripL_eq_self_of_getLast
    intro c hc hws
    cases hst : stripL s with
    | nil => rw [hst] at hc; simp at hc
    | cons a t =>
      have hne : stripL s ≠ [] := by rw [hst]; simp
      obtain ⟨u, hu⟩ : ∃ u, rstripL s = u ++ stripL s := by
        unfold stripL
        obtain ⟨w, hw, _⟩ := lstripL_decomp (rstripL s)
        exact ⟨w, hw⟩
      have hlast : (rstripL s).getLast? = some c := by
        rw [hu, List.getLast?_append, hc]
        rfl
      have hlast2 : (s.reverse.dropWhile isPySpace).head? = some c := by
        unfold rstripL at hlast
        rw [← List.head?_reverse, List.reverse_reverse] at hlast
        exact hlast
      cases hdw : s.reverse.dropWhile isPySpace with
      | nil => rw [hdw] at hlast2; simp at hlast2
      | cons b bs =>
        have hbc : b = c := by rw [hdw] at hlast2; simpa using hlast2
        have := dropWhile_head_false hdw
        rw [hbc, hws] at this
        simp at this
  unfold stripL
  rw [show rstripL (lstripL (rstripL s)) = rstripL (stripL s) from rfl, hr]
  exact hl

theorem extract_title_stripped (t : Lines) :
    stripL (extract_title t) = extract_title t := by
  unfold extract_title
  cases t.find? isHeading with
  | none =>
    show stripL ("Untitled Card".toList) = "Untitled Card".toList
    rfl
  | some l => exact stripL_idem _

theorem extract_tags_stripped (t : Lines) :
    stripL (extract_tags t) = extract_tags t := by
  unfold extract_tags
  cases t.find? isTags with
  | none => rfl
  | some l => exact stripL_idem _

theorem extract_title_noNL (s : PyStr) : '\n' ∉ extractTitleS s := by
  unfold extractTitleS extract_title
  cases hf : (splitNL s).find? isHeading with
  | none =>
    show '\n' ∉ "Untitled Card".toList
    decide
  | some l =>
    intro hmem
    have hl : l ∈ splitNL s := List.mem_of_find?_eq_some hf
    have hnl : '\n' ∉ l := splitNL_noNL s l hl
    unfold headingVal at hmem
    have h1 : '\n' ∈ l.drop 2 := mem_of_mem_stripL hmem
    exact hnl (List.drop_subset 2 l h1)

theorem extract_tags_noNL (s : PyStr) : '\n' ∉ extractTagsS s := by
  unfold extractTagsS extract_tags
  cases hf : (splitNL s).find? isTags with
  | none => simp
  | some l =>
    intro hmem
    have hl : l ∈ splitNL s := List.mem_of_find?_eq_some hf
    have hnl : '\n' ∉ l := splitNL_noNL s l hl
    unfold tagsVal at hmem
    have h1 : '\n' ∈ l.drop 6 := mem_of_mem_stripL hmem
    exact hnl (List.drop_subset 6 l h1)

end Cardify

namespace Cardify

/-! ### Tags/heading matches under a trailing whitespace run -/

theorem isTags_append_ws {l w : PyStr} (hw : ∀ c ∈ w, isPySpace c) (h : isTags l = true) :
    isTags (l ++ w) = true ∧ tagsVal (l ++ w) = tagsVal l := by
  unfold isTags at h
  rw [Bool.and_eq_true] at h
  obtain ⟨hp, hlen⟩ := h
  rw [List.isPrefixOf_iff_prefix] at hp
  have hlen2 : 6 < l.length := by simpa using hlen
  constructor
  · unfold isTags
    rw [Bool.and_eq_true]
    constructor
    · rw [List.isPrefixOf_iff_prefix]
      exact hp.trans (List.prefix_append l w)
    · simp
      omega
  · unfold tagsVal
    rw [List.drop_append_eq_append_drop, show 6 - l.length = 0 from by omega,
        List.drop_zero]
    exact stripL_append_ws _ w hw

theorem isHeading_append_ws {l w : PyStr} (hw : ∀ c ∈ w, isPySpace c)
    (h : isHeading l = true) :
    isHeading (l ++ w) = true ∧ headingVal (l ++ w) = headingVal l := by
  unfold isHeading at h
  rw [Bool.and_eq_true] at h
  obtain ⟨hp, hlen⟩ := h
  rw [List.isPrefixOf_iff_prefix] at hp
  have hlen2 : 2 < l.length := by simpa using hlen
  constructor
  · unfold isHeading
    rw [Bool.and_eq_true]
    constructor
    · rw [List.isPrefixOf_iff_prefix]
      exact hp.trans (List.prefix_append l w)
    · simp
      omega
  · unfold headingVal
    rw [List.drop_append_eq_append_drop, show 2 - l.length = 0 from by omega,
        List.drop_zero]
    exact stripL_append_ws _ w hw

theorem isHeading_ws_restrict {l w : PyStr} (hw : ∀ c ∈ w, isPySpace c)
    (h : isHeading (l ++ w) = true) (hv : headingVal (l ++ w) ≠ []) :
    isHeading l = true := by
  by_cases hl2 : l.length ≤ 2
  · exfalso
    apply hv
    unfold headingVal
    rw [List.drop_append_eq_append_drop, List.drop_eq_nil_of_le hl2, List.nil_append]
    exact allws_stripL_nil _ (fun c hc => hw c (List.drop_subset _ w hc))
  · unfold isHeading at h ⊢
    rw [Bool.and_eq_true] at h
    obtain ⟨hp, _⟩ := h
    rw [List.isPrefixOf_iff_prefix] at hp
    rw [Bool.and_eq_true]
    constructor
    · rw [List.isPrefixOf_iff_prefix]
      exact List.prefix_of_prefix_length_le hp (List.prefix_append l w) (by simp; omega)
    · simp
      omega

end Cardify

namespace Cardify

/-! ### Line structure of the whole-string strips, the collapse and the
line substitution -/

theorem lstripL_lines : ∀ z : PyStr, (∀ l ∈ splitNL z, lstripL l = l) →
    ∃ m, splitNL z = List.replicate m [] ++ splitNL (lstripL z) := by
  intro z
  induction z with
  | nil => exact fun _ => ⟨0, rfl⟩
  | cons c cs ih =>
    intro hz
    by_cases hc : c = '\n'
    · subst hc
      have hsp : splitNL ('\n' :: cs) = [] :: splitNL cs := rfl
      have hls : lstripL ('\n' :: cs) = lstripL cs :=
        List.dropWhile_cons_of_pos (by decide)
      obtain ⟨m, hm⟩ := ih (fun l hl => hz l (by rw [hsp]; exact List.mem_cons_of_mem _ hl))
      refine ⟨m + 1, ?_⟩
      rw [hsp, hls, hm, List.replicate_succ, List.cons_append]
    · cases hws : isPySpace c with
      | true =>
        exfalso
        have hsp := splitNL_cons_of_ne cs hc
        cases hcs : splitNL cs with
        | nil => exact splitNL_ne_nil cs hcs
        | cons l₀ ls =>
          rw [hcs] at hsp
          have hmem : (c :: l₀) ∈ splitNL (c :: cs) := by
            rw [hsp]; exact List.mem_cons_self _ _
          have := lstripL_head_not_ws (hz _ hmem)
          rw [hws] at this
          simp at this
      | false =>
        refine ⟨0, ?_⟩
        rw [show lstripL (c :: cs) = c :: cs from
          List.dropWhile_cons_of_neg (by simp [hws]), List.replicate, List.nil_append]

theorem rstripL_lines (z : PyStr) :
    ∃ (A : Lines) (lu hw : PyStr) (W : Lines),
      splitNL z = A ++ (lu ++ hw) :: W ∧ splitNL (rstripL z) = A ++ [lu] ∧
      (∀ c ∈ hw, isPySpace c) ∧ (∀ l ∈ W, ∀ c ∈ l, isPySpace c) := by
  obtain ⟨w, hwd, hws⟩ := rstripL_decomp z
  rcases List.eq_nil_or_concat (splitNL (rstripL z)) with hnil | ⟨A, lu, hA0⟩
  · exact absurd hnil (splitNL_ne_nil _)
  have hA : splitNL (rstripL z) = A ++ [lu] := by rw [hA0, List.concat_eq_append]
  cases hw0 : splitNL w with
  | nil => exact absurd hw0 (splitNL_ne_nil _)
  | cons h0 W =>
    refine ⟨A, lu, h0, W, ?_, hA, ?_, ?_⟩
    · rw [hwd]
      exact splitNL_concat _ _ _ _ _ _ hA hw0
    · intro c hc
      have : c ∈ joinT (splitNL w) :=
        mem_joinT_of_mem _ h0 c (by rw [hw0]; exact List.mem_cons_self _ _) hc
      rw [joinT_splitNL] at this
      exact hws c this
    · intro l hl c hc
      have : c ∈ joinT (splitNL w) :=
        mem_joinT_of_mem _ l c (by rw [hw0]; exact List.mem_cons_of_mem _ hl) hc
      rw [joinT_splitNL] at this
      exact hws c this

theorem collapse_filter (x : PyStr) :
    (splitNL (collapseNL x)).filter (fun l => decide (l ≠ [])) =
      (splitNL x).filter (fun l => decide (l ≠ [])) := by
  rw [filter_splitNL_eq_blocks (collapseNL x).length _ le_rfl,
      filter_splitNL_eq_blocks x.length _ le_rfl]
  exact blocks_collapseGo x.length x le_rfl 0

theorem collapse_mem {x : PyStr} {l : PyStr}
    (h : l ∈ splitNL (collapseNL x)) (hne : l ≠ []) : l ∈ splitNL x := by
  have h2 : l ∈ (splitNL (collapseNL x)).filter (fun l => decide (l ≠ [])) :=
    List.mem_filter.mpr ⟨h, by simp [hne]⟩
  rw [collapse_filter] at h2
  exact (List.mem_filter.mp h2).1

theorem collapse_surv {x : PyStr} {l : PyStr}
    (h : l ∈ splitNL x) (hne : l ≠ []) : l ∈ splitNL (collapseNL x) := by
  have h2 : l ∈ (splitNL x).filter (fun l => decide (l ≠ [])) :=
    List.mem_filter.mpr ⟨h, by simp [hne]⟩
  rw [← collapse_filter] at h2
  exact (List.mem_filter.mp h2).1

theorem subLineS_lines (t s : PyStr) :
    splitNL (subLineS t s) = subLine t (splitNL s) := by
  unfold subLineS
  apply splitNL_joinT
  · unfold subLine
    intro hnil
    rw [List.map_eq_nil] at hnil
    exact splitNL_ne_nil s hnil
  · intro l hl
    unfold subLine at hl
    obtain ⟨l₀, hl₀, heq⟩ := List.mem_map.mp hl
    by_cases ht : l₀ = t
    · rw [if_pos ht] at heq
      rw [← heq]
      simp
    · rw [if_neg ht] at heq
      rw [← heq]
      exact splitNL_noNL s l₀ hl₀

end Cardify

namespace Cardify

/-! ### Tracing a line of the stripped/collapsed body back to a source line -/

theorem stripS_lines_fixed {z : PyStr} (hz : ∀ l ∈ splitNL z, lstripL l = l) :
    ∀ l ∈ splitNL (rstripL z), lstripL l = l := by
  obtain ⟨A, lu, hw, W, hA1, hA2, hhw, hW⟩ := rstripL_lines z
  intro l hl
  rw [hA2] at hl
  rcases List.mem_append.mp hl with h | h
  · exact hz l (by rw [hA1]; exact List.mem_append_left _ h)
  · have hl2 : l = lu := by simpa using h
    subst hl2
    have hfull : lstripL (l ++ hw) = l ++ hw :=
      hz _ (by rw [hA1]; exact List.mem_append_right _ (List.mem_cons_self _ _))
    cases l with
    | nil => rfl
    | cons a t =>
      have hhd : isPySpace a = false := by
        have h3 : lstripL (a :: (t ++ hw)) = a :: (t ++ hw) := by simpa using hfull
        exact lstripL_head_not_ws h3
      exact List.dropWhile_cons_of_neg (by simp [hhd])

theorem stripS_mem {z : PyStr} (hz : ∀ l ∈ splitNL z, lstripL l = l) :
    ∀ l ∈ splitNL (stripL z),
      ∃ l₀ ∈ splitNL z, l₀ = l ∨ ∃ w, l₀ = l ++ w ∧ ∀ c ∈ w, isPySpace c := by
  obtain ⟨A, lu, hw, W, hA1, hA2, hhw, hW⟩ := rstripL_lines z
  obtain ⟨m, hm⟩ := lstripL_lines (rstripL z) (stripS_lines_fixed hz)
  intro l hl
  have hl2 : l ∈ splitNL (rstripL z) := by
    rw [hm]
    exact List.mem_append_right _ hl
  rw [hA2] at hl2
  rcases List.mem_append.mp hl2 with h | h
  · exact ⟨l, by rw [hA1]; exact List.mem_append_left _ h, Or.inl rfl⟩
  · have hl3 : l = lu := by simpa using h
    subst hl3
    exact ⟨l ++ hw, by rw [hA1]; exact List.mem_append_right _ (List.mem_cons_self _ _),
      Or.inr ⟨hw, rfl, hhw⟩⟩

theorem stripS_surv {z : PyStr} (hz : ∀ l ∈ splitNL z, lstripL l = l)
    {l₀ : PyStr} (h0 : l₀ ∈ splitNL z) (hne : stripL l₀ ≠ []) :
    ∃ l ∈ splitNL (stripL z),
      l₀ = l ∨ ∃ w, l₀ = l ++ w ∧ ∀ c ∈ w, isPySpace c := by
  obtain ⟨A, lu, hw, W, hA1, hA2, hhw, hW⟩ := rstripL_lines z
  obtain ⟨m, hm⟩ := lstripL_lines (rstripL z) (stripS_lines_fixed hz)
  have hdrop : ∀ x : PyStr, x ∈ splitNL (rstripL z) → x ≠ [] → x ∈ splitNL (stripL z) := by
    intro x hx hxne
    rw [hm] at hx
    rcases List.mem_append.mp hx with h | h
    · exact absurd (List.eq_of_mem_replicate h) hxne
    · exact h
  rw [hA1] at h0
  rcases List.mem_append.mp h0 with h | h
  · have h0ne : l₀ ≠ [] := by
      intro hnil
      rw [hnil] at hne
      exact hne rfl
    refine ⟨l₀, hdrop l₀ (by rw [hA2]; exact List.mem_append_left _ h) h0ne, Or.inl rfl⟩
  · rcases List.mem_cons.mp h with heq | hmem
    · have hlune : lu ≠ [] := by
        intro hnil
        apply hne
        rw [heq, hnil, List.nil_append]
        exact allws_stripL_nil _ hhw
      refine ⟨lu, hdrop lu (by rw [hA2]; exact List.mem_append_right _ (List.mem_cons_self _ _)) hlune,
        Or.inr ⟨hw, heq, hhw⟩⟩
    · exact absurd (allws_stripL_nil _ (hW l₀ hmem)) hne

theorem bodyLines_fixed {z y : PyStr}
    (hy : ∀ l ∈ splitNL y, l = [] ∨ l ∈ splitNL z)
    (hz : ∀ l ∈ splitNL z, lstripL l = l) :
    ∀ l ∈ splitNL (collapseNL y), lstripL l = l := by
  intro l hl
  by_cases hnil : l = []
  · rw [hnil]; rfl
  · rcases hy l (collapse_mem hl hnil) with h | h
    · exact absurd h hnil
    · exact hz l h

theorem bodyLines_mem {z y : PyStr}
    (hy : ∀ l ∈ splitNL y, l = [] ∨ l ∈ splitNL z)
    (hz : ∀ l ∈ splitNL z, lstripL l = l) :
    ∀ l ∈ splitNL (stripL (collapseNL y)), l = [] ∨
      ∃ l₀ ∈ splitNL z, l₀ = l ∨ ∃ w, l₀ = l ++ w ∧ ∀ c ∈ w, isPySpace c := by
  intro l hl
  by_cases hnil : l = []
  · exact Or.inl hnil
  obtain ⟨l₁, hl₁mem, hrel⟩ := stripS_mem (bodyLines_fixed hy hz) l hl
  have hl₁ne : l₁ ≠ [] := by
    rcases hrel with h | ⟨w, hw, _⟩
    · rw [h]; exact hnil
    · rw [hw]
      intro hnil2
      rw [List.append_eq_nil] at hnil2
      exact hnil hnil2.1
  rcases hy l₁ (collapse_mem hl₁mem hl₁ne) with h | h
  · exact absurd h hl₁ne
  · exact Or.inr ⟨l₁, h, hrel⟩

theorem bodyLines_surv {z y : PyStr}
    (hy : ∀ l ∈ splitNL y, l = [] ∨ l ∈ splitNL z)
    (hz : ∀ l ∈ splitNL z, lstripL l = l)
    {l₀ : PyStr} (h0 : l₀ ∈ splitNL y) (hne : stripL l₀ ≠ []) :
    ∃ l ∈ splitNL (stripL (collapseNL y)),
      l₀ = l ∨ ∃ w, l₀ = l ++ w ∧ ∀ c ∈ w, isPySpace c := by
  have h0ne : l₀ ≠ [] := by
    intro hnil
    rw [hnil] at hne
    exact hne rfl
  exact stripS_surv (bodyLines_fixed hy hz) (collapse_surv h0 h0ne) hne

end Cardify

namespace Cardify

/-! ### The line structure of an exported document -/

theorem splitNL_cons_nl (cs : PyStr) : splitNL ('\n' :: cs) = [] :: splitNL cs := rfl

theorem splitNL_chunk (x y : PyStr) (hx : '\n' ∉ x) :
    splitNL (x ++ '\n' :: y) = x :: splitNL y := by
  rw [splitNL_append, splitNL_of_noNL x hx]
  rfl

theorem export_front_lines (fT fG B : PyStr) (h1 : '\n' ∉ fT) (h2 : '\n' ∉ fG) :
    splitNL (("# ".toList ++ fT) ++ '\n' :: '\n' ::
        (B ++ '\n' :: '\n' :: (("Tags: ".toList ++ fG) ++ ['\n']))) =
      ("# ".toList ++ fT) :: [] ::
        (splitNL B ++ [] :: ("Tags: ".toList ++ fG) :: [[]]) := by
  have hfT : '\n' ∉ "# ".toList ++ fT := by
    intro h
    rcases List.mem_append.mp h with h | h
    · simp at h
    · exact h1 h
  have hfG : '\n' ∉ "Tags: ".toList ++ fG := by
    intro h
    rcases List.mem_append.mp h with h | h
    · simp at h
    · exact h2 h
  rw [splitNL_chunk _ _ hfT, splitNL_cons_nl, splitNL_append, splitNL_cons_nl,
      show (("Tags: ".toList ++ fG) ++ ['\n'] : PyStr)
        = ("Tags: ".toList ++ fG) ++ '\n' :: [] from rfl,
      splitNL_chunk _ _ hfG]
  rfl

theorem export_back_lines (fT fG bG B D : PyStr)
    (h1 : '\n' ∉ fT) (h2 : '\n' ∉ fG) (h3 : '\n' ∉ bG) :
    splitNL (("# ".toList ++ fT) ++ '\n' :: '\n' ::
        (B ++ '\n' :: '\n' :: (("Tags: ".toList ++ fG) ++ '\n' :: '\n' ::
          ("## Back Side".toList ++ '\n' :: '\n' ::
            (D ++ '\n' :: (if bG ≠ [] then '\n' :: ("Tags: ".toList ++ bG) else [])))))) =
      ("# ".toList ++ fT) :: [] ::
        (splitNL B ++ [] :: ("Tags: ".toList ++ fG) :: [] :: "## Back Side".toList :: [] ::
          (splitNL D ++ (if bG ≠ [] then [[], "Tags: ".toList ++ bG] else [[]]))) := by
  have hfT : '\n' ∉ "# ".toList ++ fT := by
    intro h
    rcases List.mem_append.mp h with h | h
    · simp at h
    · exact h1 h
  have hfG : '\n' ∉ "Tags: ".toList ++ fG := by
    intro h
    rcases List.mem_append.mp h with h | h
    · simp at h
    · exact h2 h
  have hBS : '\n' ∉ "## Back Side".toList := by decide
  rw [splitNL_chunk _ _ hfT, splitNL_cons_nl, splitNL_append, splitNL_cons_nl,
      splitNL_chunk _ _ hfG, splitNL_cons_nl, splitNL_chunk _ _ hBS, splitNL_cons_nl,
      splitNL_append]
  by_cases hbG : bG = []
  · rw [if_neg (by simp [hbG]), if_neg (by simp [hbG])]
    rfl
  · have hTB : '\n' ∉ "Tags: ".toList ++ bG := by
      intro h
      rcases List.mem_append.mp h with h | h
      · simp at h
      · exact h3 h
    rw [if_pos hbG, if_pos hbG, splitNL_cons_nl, splitNL_of_noNL ("Tags: ".toList ++ bG) hTB]

theorem extract_tags_of_all {t : Lines} {g : PyStr}
    (hall : ∀ l ∈ t, isTags l = true → tagsVal l = g)
    (hex : g ≠ [] → ∃ l ∈ t, isTags l = true) :
    extract_tags t = g := by
  unfold extract_tags
  cases hf : t.find? isTags with
  | none =>
    rcases eq_or_ne g [] with rfl | hgne
    · rfl
    · obtain ⟨l, hl, hT⟩ := hex hgne
      exact absurd hT (List.find?_eq_none.mp hf l hl)
  | some l =>
    exact hall l (List.mem_of_find?_eq_some hf) (List.find?_some hf)

theorem extract_title_of_all {t : Lines} {g : PyStr}
    (hall : ∀ l ∈ t, isHeading l = true → headingVal l = g)
    (hex : g ≠ "Untitled Card".toList → ∃ l ∈ t, isHeading l = true) :
    extract_title t = g := by
  unfold extract_title
  cases hf : t.find? isHeading with
  | none =>
    rcases eq_or_ne g ("Untitled Card".toList) with rfl | hgne
    · rfl
    · obtain ⟨l, hl, hT⟩ := hex hgne
      exact absurd hT (List.find?_eq_none.mp hf l hl)
  | some l =>
    exact hall l (List.mem_of_find?_eq_some hf) (List.find?_some hf)

theorem isHeading_title_line {fT : PyStr} (h1 : fT ≠ []) :
    isHeading ("# ".toList ++ fT) = true := by
  unfold isHeading
  rw [Bool.and_eq_true]
  constructor
  · rw [List.isPrefixOf_iff_prefix]
    exact List.prefix_append _ fT
  · have : 0 < fT.length := List.length_pos.mpr h1
    simp
    omega

theorem export_title_of_lines {fT : PyStr} {rest : Lines}
    (h1 : fT ≠ []) (hstrip : stripL fT = fT) :
    extract_title (("# ".toList ++ fT) :: rest) = fT := by
  unfold extract_title
  rw [List.find?_cons_of_pos _ (isHeading_title_line h1)]
  show stripL fT = fT
  exact hstrip

end Cardify

namespace Cardify

/-! ### Classifying the fixed lines of an exported document -/

theorem isTags_cons_ne {c : Char} (x : PyStr) (h : c ≠ 'T') : isTags (c :: x) = false := by
  unfold isTags
  have h1 : ("Tags: ".toList : PyStr) = 'T' :: "ags: ".toList := rfl
  rw [h1]
  have h2 : List.isPrefixOf ('T' :: "ags: ".toList) (c :: x)
      = (('T' == c) && List.isPrefixOf ("ags: ".toList) x) := rfl
  rw [h2, show ('T' == c) = false from by simp [Ne.symm h]]
  simp

theorem isHeading_cons_ne {c : Char} (x : PyStr) (h : c ≠ '#') :
    isHeading (c :: x) = false := by
  unfold isHeading
  have h1 : ("# ".toList : PyStr) = '#' :: " ".toList := rfl
  rw [h1]
  have h2 : List.isPrefixOf ('#' :: " ".toList) (c :: x)
      = (('#' == c) && List.isPrefixOf (" ".toList) x) := rfl
  rw [h2, show ('#' == c) = false from by simp [Ne.symm h]]
  simp

theorem isTags_title_line (x : PyStr) : isTags ("# ".toList ++ x) = false := by
  have h1 : ("# ".toList ++ x : PyStr) = '#' :: (' ' :: x) := rfl
  rw [h1]
  exact isTags_cons_ne _ (by decide)

theorem isHeading_tags_line (x : PyStr) : isHeading ("Tags: ".toList ++ x) = false := by
  have h1 : ("Tags: ".toList ++ x : PyStr) = 'T' :: ("ags: ".toList ++ x) := rfl
  rw [h1]
  exact isHeading_cons_ne _ (by decide)

theorem tagsVal_tags_line (g : PyStr) : tagsVal ("Tags: ".toList ++ g) = stripL g := rfl

theorem isTags_tags_line {g : PyStr} (h : g ≠ []) :
    isTags ("Tags: ".toList ++ g) = true := by
  unfold isTags
  rw [Bool.and_eq_true]
  constructor
  · rw [List.isPrefixOf_iff_prefix]
    exact List.prefix_append _ g
  · have : 0 < g.length := List.length_pos.mpr h
    simp
    omega

theorem title_line_ne_BS (fT : PyStr) :
    ("# ".toList ++ fT) ≠ "## Back Side".toList := by
  intro h
  have h2 : ('#' :: ' ' :: fT : PyStr) = '#' :: '#' :: " Back Side".toList := h
  injection h2 with _ h3
  injection h3 with h4 _
  exact absurd h4 (by decide)

theorem tags_line_ne_BS (fG : PyStr) :
    ("Tags: ".toList ++ fG) ≠ "## Back Side".toList := by
  intro h
  have h2 : ('T' :: ("ags: ".toList ++ fG) : PyStr) = '#' :: "# Back Side".toList := h
  injection h2 with h3 _
  exact absurd h3 (by decide)

theorem lineFrom_ne_BS {l₀ l : PyStr}
    (hrel : l₀ = l ∨ ∃ w, l₀ = l ++ w ∧ ∀ c ∈ w, isPySpace c)
    (h10 : rstripL l₀ ≠ "## Back Side".toList) : l ≠ "## Back Side".toList := by
  intro hl
  subst hl
  rcases hrel with h | ⟨w, hw, hws⟩
  · apply h10
    rw [h]
    decide
  · apply h10
    rw [hw, rstripL_append_ws _ _ hws]
    decide

theorem dropWhile_to_BS {P Q : Lines} (hP : ∀ l ∈ P, l ≠ "## Back Side".toList) :
    (P ++ "## Back Side".toList :: Q).dropWhile
        (fun l => decide (l ≠ "## Back Side".toList)) = "## Back Side".toList :: Q := by
  induction P with
  | nil =>
    rw [List.nil_append, List.dropWhile_cons_of_neg (by simp)]
  | cons p P' ih =>
    rw [List.cons_append,
        List.dropWhile_cons_of_pos (by simp; exact hP p (List.mem_cons_self _ _)),
        ih (fun l hl => hP l (List.mem_cons_of_mem _ hl))]

end Cardify

namespace Cardify

/-! ### Re-extraction from an assembled export document -/

theorem export_extract_front (fT fG bodyB E : PyStr)
    (hfTnn : '\n' ∉ fT) (hfGnn : '\n' ∉ fG)
    (hfTne : fT ≠ [])
    (hfTstrip : stripL fT = fT) (hfGstrip : stripL fG = fG)
    (hB : ∀ l ∈ splitNL bodyB, isTags l = true → tagsVal l = fG)
    (hE : E = ("# ".toList ++ fT) ++ '\n' :: '\n' ::
        (bodyB ++ '\n' :: '\n' :: (("Tags: ".toList ++ fG) ++ ['\n']))) :
    extractTitleS E = fT ∧ extractTagsS E = fG := by
  have hlines : splitNL E = ("# ".toList ++ fT) :: [] ::
      (splitNL bodyB ++ [] :: ("Tags: ".toList ++ fG) :: [[]]) := by
    rw [hE]
    exact export_front_lines fT fG bodyB hfTnn hfGnn
  constructor
  · unfold extractTitleS
    rw [hlines]
    exact export_title_of_lines hfTne hfTstrip
  · unfold extractTagsS
    rw [hlines]
    apply extract_tags_of_all
    · intro l hl hT
      rcases List.mem_cons.mp hl with rfl | hl
      · rw [isTags_title_line] at hT
        simp at hT
      rcases List.mem_cons.mp hl with rfl | hl
      · exact absurd hT (by decide)
      rcases List.mem_append.mp hl with hl | hl
      · exact hB l hl hT
      rcases List.mem_cons.mp hl with rfl | hl
      · exact absurd hT (by decide)
      rcases List.mem_cons.mp hl with rfl | hl
      · rw [tagsVal_tags_line]
        exact hfGstrip
      · have hnil : l = [] := by simpa using hl
        subst hnil
        exact absurd hT (by decide)
    · intro hne
      refine ⟨"Tags: ".toList ++ fG, ?_, isTags_tags_line hne⟩
      exact List.mem_cons_of_mem _ (List.mem_cons_of_mem _
        (List.mem_append_right _ (List.mem_cons_of_mem _ (List.mem_cons_self _ _))))

end Cardify

namespace Cardify

theorem export_extract_back (fT fG bT bG bodyB bodyD E : PyStr)
    (hfTnn : '\n' ∉ fT) (hfGnn : '\n' ∉ fG) (hbGnn : '\n' ∉ bG)
    (hfTne : fT ≠ [])
    (hfTstrip : stripL fT = fT) (hfGstrip : stripL fG = fG) (hbGstrip : stripL bG = bG)
    (hB : ∀ l ∈ splitNL bodyB, isTags l = true → tagsVal l = fG)
    (hBBS : ∀ l ∈ splitNL bodyB, l ≠ "## Back Side".toList)
    (hD : ∀ l ∈ splitNL bodyD, isTags l = true → tagsVal l = bG)
    (hDh : ∀ l ∈ splitNL bodyD, isHeading l = true → headingVal l = bT)
    (hDex : bT ≠ "Untitled Card".toList → ∃ l ∈ splitNL bodyD, isHeading l = true)
    (h9 : fG = [] → bG = [])
    (hE : E = ("# ".toList ++ fT) ++ '\n' :: '\n' :: (bodyB ++ '\n' :: '\n' ::
      (("Tags: ".toList ++ fG) ++ '\n' :: '\n' :: ("## Back Side".toList ++ '\n' :: '\n' ::
        (bodyD ++ '\n' :: (if bG ≠ [] then '\n' :: ("Tags: ".toList ++ bG) else [])))))) :
    extractTitleS E = fT ∧ extractTagsS E = fG ∧
      extract_title (backSectionLines E) = bT ∧
      extract_tags (backSectionLines E) = bG := by
  have hlines : splitNL E = ("# ".toList ++ fT) :: [] ::
      (splitNL bodyB ++ [] :: ("Tags: ".toList ++ fG) :: [] :: "## Back Side".toList :: [] ::
        (splitNL bodyD ++ (if bG ≠ [] then [[], "Tags: ".toList ++ bG] else [[]]))) := by
    rw [hE]
    exact export_back_lines fT fG bG bodyB bodyD hfTnn hfGnn hbGnn
  have hsec : backSectionLines E = [] ::
      (splitNL bodyD ++ (if bG ≠ [] then [[], "Tags: ".toList ++ bG] else [[]])) := by
    unfold backSectionLines
    rw [hlines]
    have hsplit : (("# ".toList ++ fT) :: [] ::
        (splitNL bodyB ++ [] :: ("Tags: ".toList ++ fG) :: [] :: "## Back Side".toList :: [] ::
          (splitNL bodyD ++ (if bG ≠ [] then [[], "Tags: ".toList ++ bG] else [[]]))) : Lines)
        = (("# ".toList ++ fT) :: [] ::
            (splitNL bodyB ++ [[], "Tags: ".toList ++ fG, []]))
          ++ "## Back Side".toList :: [] ::
            (splitNL bodyD ++ (if bG ≠ [] then [[], "Tags: ".toList ++ bG] else [[]])) := by
      simp
    rw [hsplit, dropWhile_to_BS]
    · rfl
    · intro l hl
      rcases List.mem_cons.mp hl with rfl | hl
      · exact title_line_ne_BS fT
      rcases List.mem_cons.mp hl with rfl | hl
      · decide
      rcases List.mem_append.mp hl with hl | hl
      · exact hBBS l hl
      rcases List.mem_cons.mp hl with rfl | hl
      · decide
      rcases List.mem_cons.mp hl with rfl | hl
      · exact tags_line_ne_BS fG
      · have hnil : l = [] := by simpa using hl
        subst hnil
        decide
  refine ⟨?_, ?_, ?_, ?_⟩
  · unfold extractTitleS
    rw [hlines]
    exact export_title_of_lines hfTne hfTstrip
  · unfold extractTagsS
    rw [hlines]
    by_cases hfG : fG = []
    · have hbG : bG = [] := h9 hfG
      apply extract_tags_of_all
      · intro l hl hT
        rcases List.mem_cons.mp hl with rfl | hl
        · rw [isTags_title_line] at hT
          simp at hT
        rcases List.mem_cons.mp hl with rfl | hl
        · exact absurd hT (by decide)
        rcases List.mem_append.mp hl with hl | hl
        · exact hB l hl hT
        rcases List.mem_cons.mp hl with rfl | hl
        · exact absurd hT (by decide)
        rcases List.mem_cons.mp hl with rfl | hl
        · rw [tagsVal_tags_line]
          exact hfGstrip
        rcases List.mem_cons.mp hl with rfl | hl
        · exact absurd hT (by decide)
        rcases List.mem_cons.mp hl with rfl | hl
        · exact absurd hT (by decide)
        rcases List.mem_cons.mp hl with rfl | hl
        · exact absurd hT (by decide)
        rcases List.mem_append.mp hl with hl | hl
        · rw [hD l hl hT, hbG, hfG]
        · rw [if_neg (by simp [hbG])] at hl
          have hnil : l = [] := by simpa using hl
          subst hnil
          exact absurd hT (by decide)
      · exact fun hne => absurd hfG hne
    · have hPQ : (("# ".toList ++ fT) :: [] ::
          (splitNL bodyB ++ [] :: ("Tags: ".toList ++ fG) :: [] :: "## Back Side".toList :: [] ::
            (splitNL bodyD ++ (if bG ≠ [] then [[], "Tags: ".toList ++ bG] else [[]]))) : Lines)
          = (("# ".toList ++ fT) :: [] :: (splitNL bodyB ++ [[], "Tags: ".toList ++ fG]))
            ++ [] :: "## Back Side".toList :: [] ::
              (splitNL bodyD ++ (if bG ≠ [] then [[], "Tags: ".toList ++ bG] else [[]])) := by
        simp
      unfold extract_tags
      rw [hPQ, List.find?_append]
      have hTfmem : ("Tags: ".toList ++ fG) ∈ (("# ".toList ++ fT) :: [] ::
          (splitNL bodyB ++ [[], "Tags: ".toList ++ fG]) : Lines) :=
        List.mem_cons_of_mem _ (List.mem_cons_of_mem _
          (List.mem_append_right _ (List.mem_cons_of_mem _ (List.mem_cons_self _ _))))
      cases hf : List.find? isTags (("# ".toList ++ fT) :: [] ::
          (splitNL bodyB ++ [[], "Tags: ".toList ++ fG]) : Lines) with
      | none =>
        exact absurd (isTags_tags_line hfG) (List.find?_eq_none.mp hf _ hTfmem)
      | some l =>
        have hmem := List.mem_of_find?_eq_some hf
        have hT := List.find?_some hf
        show tagsVal l = fG
        rcases List.mem_cons.mp hmem with rfl | hmem
        · rw [isTags_title_line] at hT
          simp at hT
        rcases List.mem_cons.mp hmem with rfl | hmem
        · exact absurd hT (by decide)
        rcases List.mem_append.mp hmem with hmem | hmem
        · exact hB l hmem hT
        rcases List.mem_cons.mp hmem with rfl | hmem
        · exact absurd hT (by decide)
        · have hTl : l = "Tags: ".toList ++ fG := by simpa using hmem
          subst hTl
          rw [tagsVal_tags_line]
          exact hfGstrip
  · rw [hsec]
    apply extract_title_of_all
    · intro l hl hh
      rcases List.mem_cons.mp hl with rfl | hl
      · exact absurd hh (by decide)
      rcases List.mem_append.mp hl with hl | hl
      · exact hDh l hl hh
      · by_cases hbG : bG = []
        · rw [if_neg (by simp [hbG])] at hl
          have hnil : l = [] := by simpa using hl
          subst hnil
          exact absurd hh (by decide)
        · rw [if_pos hbG] at hl
          rcases List.mem_cons.mp hl with rfl | hl
          · exact absurd hh (by decide)
          · have hTl : l = "Tags: ".toList ++ bG := by simpa using hl
            subst hTl
            rw [isHeading_tags_line] at hh
            simp at hh
    · intro hne
      obtain ⟨l, hl, hh⟩ := hDex hne
      exact ⟨l, List.mem_cons_of_mem _ (List.mem_append_left _ hl), hh⟩
  · rw [hsec]
    apply extract_tags_of_all
    · intro l hl hT
      rcases List.mem_cons.mp hl with rfl | hl
      · exact absurd hT (by decide)
      rcases List.mem_append.mp hl with hl | hl
      · exact hD l hl hT
      · by_cases hbG : bG = []
        · rw [if_neg (by simp [hbG])] at hl
          have hnil : l = [] := by simpa using hl
          subst hnil
          exact absurd hT (by decide)
        · rw [if_pos hbG] at hl
          rcases List.mem_cons.mp hl with rfl | hl
          · exact absurd hT (by decide)
          · have hTl : l = "Tags: ".toList ++ bG := by simpa using hl
            subst hTl
            rw [tagsVal_tags_line]
            exact hbGstrip
    · intro hne
      refine ⟨"Tags: ".toList ++ bG, ?_, isTags_tags_line hne⟩
      rw [if_pos hne]
      exact List.mem_cons_of_mem _
        (List.mem_append_right _ (List.mem_cons_of_mem _ (List.mem_cons_self _ _)))

end Cardify

namespace Cardify

/-! ### From hypotheses on the source lines to facts about the cleaned body -/

theorem subLineS_src {t s : PyStr} :
    ∀ l ∈ splitNL (subLineS t s), l = [] ∨ l ∈ splitNL s := by
  intro l hl
  rw [subLineS_lines] at hl
  unfold subLine at hl
  obtain ⟨l₀, hl₀, heq⟩ := List.mem_map.mp hl
  by_cases h : l₀ = t
  · rw [if_pos h] at heq
    exact Or.inl heq.symm
  · rw [if_neg h] at heq
    exact Or.inr (heq ▸ hl₀)

theorem mem_subLineS_of_ne {t s l₀ : PyStr} (h : l₀ ∈ splitNL s) (hne : l₀ ≠ t) :
    l₀ ∈ splitNL (subLineS t s) := by
  rw [subLineS_lines]
  unfold subLine
  have hm : (if l₀ = t then ([] : PyStr) else l₀)
      ∈ List.map (fun l => if l = t then [] else l) (splitNL s) :=
    List.mem_map_of_mem _ h
  rw [if_neg hne] at hm
  exact hm

theorem bodyTags_of_source {z y g : PyStr}
    (hy : ∀ l ∈ splitNL y, l = [] ∨ l ∈ splitNL z)
    (hz : ∀ l ∈ splitNL z, lstripL l = l)
    (htags : ∀ l ∈ splitNL z, isTags l = true → tagsVal l = g) :
    ∀ l ∈ splitNL (stripL (collapseNL y)), isTags l = true → tagsVal l = g := by
  intro l hl hT
  rcases bodyLines_mem hy hz l hl with rfl | ⟨l₀, hl₀, hrel⟩
  · exact absurd hT (by decide)
  rcases hrel with rfl | ⟨w, hw, hws⟩
  · exact htags _ hl₀ hT
  · obtain ⟨hT0, hval⟩ := isTags_append_ws hws hT
    rw [← hw] at hT0 hval
    rw [← hval]
    exact htags l₀ hl₀ hT0

theorem bodyHeading_of_source {z y g : PyStr}
    (hy : ∀ l ∈ splitNL y, l = [] ∨ l ∈ splitNL z)
    (hz : ∀ l ∈ splitNL z, lstripL l = l)
    (hhead : ∀ l ∈ splitNL z, isHeading l = true → headingVal l = g) :
    ∀ l ∈ splitNL (stripL (collapseNL y)), isHeading l = true → headingVal l = g := by
  intro l hl hh
  rcases bodyLines_mem hy hz l hl with rfl | ⟨l₀, hl₀, hrel⟩
  · exact absurd hh (by decide)
  rcases hrel with rfl | ⟨w, hw, hws⟩
  · exact hhead _ hl₀ hh
  · obtain ⟨hh0, hval⟩ := isHeading_append_ws hws hh
    rw [← hw] at hh0 hval
    rw [← hval]
    exact hhead l₀ hl₀ hh0

theorem bodyBS_of_source {z y : PyStr}
    (hy : ∀ l ∈ splitNL y, l = [] ∨ l ∈ splitNL z)
    (hz : ∀ l ∈ splitNL z, lstripL l = l)
    (hBS : ∀ l ∈ splitNL z, rstripL l ≠ "## Back Side".toList) :
    ∀ l ∈ splitNL (stripL (collapseNL y)), l ≠ "## Back Side".toList := by
  intro l hl
  rcases bodyLines_mem hy hz l hl with rfl | ⟨l₀, hl₀, hrel⟩
  · decide
  · exact lineFrom_ne_BS hrel (hBS l₀ hl₀)

theorem bodyHeading_surv {z y l₀ : PyStr}
    (hy : ∀ l ∈ splitNL y, l = [] ∨ l ∈ splitNL z)
    (hz : ∀ l ∈ splitNL z, lstripL l = l)
    (hyin : l₀ ∈ splitNL y) (hh : isHeading l₀ = true) (hv : headingVal l₀ ≠ []) :
    ∃ l ∈ splitNL (stripL (collapseNL y)), isHeading l = true := by
  have hstr : stripL l₀ ≠ [] := by
    obtain ⟨c, hc, hcw⟩ := exists_not_ws_of_stripL_ne (s := l₀.drop 2) hv
    exact stripL_ne_nil_of_mem (List.drop_subset _ _ hc) (by simp [hcw])
  obtain ⟨l, hl, hrel⟩ := bodyLines_surv hy hz hyin hstr
  refine ⟨l, hl, ?_⟩
  rcases hrel with rfl | ⟨w, hw, hws⟩
  · exact hh
  · rw [hw] at hh hv
    exact isHeading_ws_restrict hws hh hv

end Cardify

namespace Cardify

/-- C2 (amended): exporting a card and re-importing preserves the front
title and tags, and the back-section title and tags, under the stated
regularity conditions: the front title is non-blank, no line of the front
or of the stripped back starts with whitespace, every tags line of a side
carries that side's extracted tags value, every heading line of the back
carries the back's extracted title, the back title differs from the front
title and is non-blank, a blank front tags value forces a blank back tags
value, and no front line rstrips to the back-section marker. -/
theorem c2_roundtrip (front back : PyStr)
    (h1 : extractTitleS front ≠ [])
    (h2 : ∀ l ∈ splitNL front, lstripL l = l)
    (h3 : ∀ l ∈ splitNL front, isTags l = true → tagsVal l = extractTagsS front)
    (h4 : ∀ l ∈ splitNL (stripL back), lstripL l = l)
    (h5 : ∀ l ∈ splitNL (stripL back), isTags l = true →
      tagsVal l = extractTagsS (stripL back))
    (h6 : ∀ l ∈ splitNL (stripL back), isHeading l = true →
      headingVal l = extractTitleS (stripL back))
    (h7 : extractTitleS (stripL back) ≠ extractTitleS front)
    (h8 : extractTitleS (stripL back) ≠ [])
    (h9 : extractTagsS front = [] → extractTagsS (stripL back) = [])
    (h10 : ∀ l ∈ splitNL front, rstripL l ≠ "## Back Side".toList) :
    extractTitleS (export_markdown_content front back) = extractTitleS front ∧
    extractTagsS (export_markdown_content front back) = extractTagsS front ∧
    (stripL back ≠ [] →
      extract_title (backSectionLines (export_markdown_content front back))
        = extractTitleS (stripL back) ∧
      extract_tags (backSectionLines (export_markdown_content front back))
        = extractTagsS (stripL back)) := by
  have hyF : ∀ l ∈ splitNL (if extractTagsS front ≠ [] then
        subLineS ("Tags: ".toList ++ extractTagsS front)
          (if extractTitleS front ≠ "Untitled Card".toList then
            subLineS ("# ".toList ++ extractTitleS front) front else front)
      else (if extractTitleS front ≠ "Untitled Card".toList then
            subLineS ("# ".toList ++ extractTitleS front) front else front)),
      l = [] ∨ l ∈ splitNL front := by
    have hy1 : ∀ l ∈ splitNL (if extractTitleS front ≠ "Untitled Card".toList then
        subLineS ("# ".toList ++ extractTitleS front) front else front),
        l = [] ∨ l ∈ splitNL front := by
      by_cases h : extractTitleS front ≠ "Untitled Card".toList
      · intro l hl
        rw [if_pos h] at hl
        exact subLineS_src l hl
      · intro l hl
        rw [if_neg h] at hl
        exact Or.inr hl
    by_cases h : extractTagsS front ≠ []
    · intro l hl
      rw [if_pos h] at hl
      rcases subLineS_src l hl with hnil | hmem
      · exact Or.inl hnil
      · exact hy1 l hmem
    · intro l hl
      rw [if_neg h] at hl
      exact hy1 l hl
  by_cases hback : stripL back = []
  · have hE : export_markdown_content front back =
        ("# ".toList ++ extractTitleS front) ++ '\n' :: '\n' ::
          (stripL (collapseNL (if extractTagsS front ≠ [] then
              subLineS ("Tags: ".toList ++ extractTagsS front)
                (if extractTitleS front ≠ "Untitled Card".toList then
                  subLineS ("# ".toList ++ extractTitleS front) front else front)
            else (if extractTitleS front ≠ "Untitled Card".toList then
                  subLineS ("# ".toList ++ extractTitleS front) front else front)))
            ++ '\n' :: '\n' ::
              (("Tags: ".toList ++ extractTagsS front) ++ ['\n'])) := by
      have hA2 : "\n\n".toList = ('\n' :: '\n' :: [] : PyStr) := rfl
      have hA3 : "\n\nTags: ".toList = ('\n' :: '\n' :: "Tags: ".toList : PyStr) := rfl
      have hA5 : "\n".toList = (['\n'] : PyStr) := rfl
      simp only [export_markdown_content]
      rw [if_neg (by simp [hback])]
      rw [hA2, hA3, hA5]
      simp only [List.append_assoc, List.cons_append, List.nil_append]
    obtain ⟨c1, c2⟩ := export_extract_front (extractTitleS front) (extractTagsS front)
      (stripL (collapseNL (if extractTagsS front ≠ [] then
          subLineS ("Tags: ".toList ++ extractTagsS front)
            (if extractTitleS front ≠ "Untitled Card".toList then
              subLineS ("# ".toList ++ extractTitleS front) front else front)
        else (if extractTitleS front ≠ "Untitled Card".toList then
              subLineS ("# ".toList ++ extractTitleS front) front else front))))
      (export_markdown_content front back)
      (extract_title_noNL front) (extract_tags_noNL front) h1
      (extract_title_stripped (splitNL front)) (extract_tags_stripped (splitNL front))
      (bodyTags_of_source hyF h2 h3) hE
    exact ⟨c1, c2, fun hcontra => absurd hback hcontra⟩
  · have hyB : ∀ l ∈ splitNL (if extractTagsS (stripL back) ≠ [] then
          subLineS ("Tags: ".toList ++ extractTagsS (stripL back))
            (if extractTitleS (stripL back) = extractTitleS front then
              subLineS ("# ".toList ++ extractTitleS (stripL back)) (stripL back)
            else stripL back)
        else (if extractTitleS (stripL back) = extractTitleS front then
              subLineS ("# ".toList ++ extractTitleS (stripL back)) (stripL back)
            else stripL back)),
        l = [] ∨ l ∈ splitNL (stripL back) := by
      have hy1 : ∀ l ∈ splitNL (if extractTitleS (stripL back) = extractTitleS front then
          subLineS ("# ".toList ++ extractTitleS (stripL back)) (stripL back)
          else stripL back),
          l = [] ∨ l ∈ splitNL (stripL back) := by
        intro l hl
        rw [if_neg h7] at hl
        exact Or.inr hl
      by_cases h : extractTagsS (stripL back) ≠ []
      · intro l hl
        rw [if_pos h] at hl
        rcases subLineS_src l hl with hnil | hmem
        · exact Or.inl hnil
        · exact hy1 l hmem
      · intro l hl
        rw [if_neg h] at hl
        exact hy1 l hl
    have hDex : extractTitleS (stripL back) ≠ "Untitled Card".toList →
        ∃ l ∈ splitNL (stripL (collapseNL (if extractTagsS (stripL back) ≠ [] then
            subLineS ("Tags: ".toList ++ extractTagsS (stripL back))
              (if extractTitleS (stripL back) = extractTitleS front then
                subLineS ("# ".toList ++ extractTitleS (stripL back)) (stripL back)
              else stripL back)
          else (if extractTitleS (stripL back) = extractTitleS front then
                subLineS ("# ".toList ++ extractTitleS (stripL back)) (stripL back)
              else stripL back)))),
          isHeading l = true := by
      intro hne
      cases hf : (splitNL (stripL back)).find? isHeading with
      | none =>
        exfalso
        apply hne
        unfold extractTitleS extract_title
        rw [hf]
      | some l₀ =>
        have hmem := List.mem_of_find?_eq_some hf
        have hh := List.find?_some hf
        have hval : headingVal l₀ = extractTitleS (stripL back) := by
          unfold extractTitleS extract_title
          rw [hf]
        have hne2 : l₀ ≠ "Tags: ".toList ++ extractTagsS (stripL back) := by
          intro heq
          rw [heq, isHeading_tags_line] at hh
          simp at hh
        have hyin1 : l₀ ∈ splitNL (if extractTitleS (stripL back) = extractTitleS front
            then subLineS ("# ".toList ++ extractTitleS (stripL back)) (stripL back)
            else stripL back) := by
          rw [if_neg h7]
          exact hmem
        have hyin : l₀ ∈ splitNL (if extractTagsS (stripL back) ≠ [] then
            subLineS ("Tags: ".toList ++ extractTagsS (stripL back))
              (if extractTitleS (stripL back) = extractTitleS front then
                subLineS ("# ".toList ++ extractTitleS (stripL back)) (stripL back)
              else stripL back)
          else (if extractTitleS (stripL back) = extractTitleS front then
                subLineS ("# ".toList ++ extractTitleS (stripL back)) (stripL back)
              else stripL back)) := by
          by_cases h : extractTagsS (stripL back) ≠ []
          · rw [if_pos h]
            exact mem_subLineS_of_ne hyin1 hne2
          · rw [if_neg h]
            exact hyin1
        exact bodyHeading_surv hyB h4 hyin hh (by rw [hval]; exact h8)
    have hE : export_markdown_content front back =
        ("# ".toList ++ extractTitleS front) ++ '\n' :: '\n' ::
          (stripL (collapseNL (if extractTagsS front ≠ [] then
              subLineS ("Tags: ".toList ++ extractTagsS front)
                (if extractTitleS front ≠ "Untitled Card".toList then
                  subLineS ("# ".toList ++ extractTitleS front) front else front)
            else (if extractTitleS front ≠ "Untitled Card".toList then
                  subLineS ("# ".toList ++ extractTitleS front) front else front)))
            ++ '\n' :: '\n' ::
              (("Tags: ".toList ++ extractTagsS front) ++ '\n' :: '\n' ::
                ("## Back Side".toList ++ '\n' :: '\n' ::
                  (stripL (collapseNL (if extractTagsS (stripL back) ≠ [] then
                      subLineS ("Tags: ".toList ++ extractTagsS (stripL back))
                        (if extractTitleS (stripL back) = extractTitleS front then
                          subLineS ("# ".toList ++ extractTitleS (stripL back))
                            (stripL back)
                        else stripL back)
                    else (if extractTitleS (stripL back) = extractTitleS front then
                          subLineS ("# ".toList ++ extractTitleS (stripL back))
                            (stripL back)
                        else stripL back)))
                    ++ '\n' :: (if extractTagsS (stripL back) ≠ [] then
                        '\n' :: ("Tags: ".toList ++ extractTagsS (stripL back))
                      else []))))) := by
      have hA2 : "\n\n".toList = ('\n' :: '\n' :: [] : PyStr) := rfl
      have hA3 : "\n\nTags: ".toList = ('\n' :: '\n' :: "Tags: ".toList : PyStr) := rfl
      have hA4 : "\n\n## Back Side\n\n".toList
          = ('\n' :: '\n' :: ("## Back Side".toList ++ ['\n', '\n']) : PyStr) := rfl
      have hA5 : "\n".toList = (['\n'] : PyStr) := rfl
      have hA6 : "\nTags: ".toList = ('\n' :: "Tags: ".toList : PyStr) := rfl
      simp only [export_markdown_content]
      rw [if_pos hback]
      rw [hA2, hA3, hA4, hA5, hA6]
      simp only [List.append_assoc, List.cons_append, List.nil_append]
    obtain ⟨c1, c2, c3, c4⟩ := export_extract_back (extractTitleS front)
      (extractTagsS front) (extractTitleS (stripL back)) (extractTagsS (stripL back))
      (stripL (collapseNL (if extractTagsS front ≠ [] then
          subLineS ("Tags: ".toList ++ extractTagsS front)
            (if extractTitleS front ≠ "Untitled Card".toList then
              subLineS ("# ".toList ++ extractTitleS front) front else front)
        else (if extractTitleS front ≠ "Untitled Card".toList then
              subLineS ("# ".toList ++ extractTitleS front) front else front))))
      (stripL (collapseNL (if extractTagsS (stripL back) ≠ [] then
          subLineS ("Tags: ".toList ++ extractTagsS (stripL back))
            (if extractTitleS (stripL back) = extractTitleS front then
              subLineS ("# ".toList ++ extractTitleS (stripL back)) (stripL back)
            else stripL back)
        else (if extractTitleS (stripL back) = extractTitleS front then
              subLineS ("# ".toList ++ extractTitleS (stripL back)) (stripL back)
            else stripL back))))
      (export_markdown_content front back)
      (extract_title_noNL front) (extract_tags_noNL front)
      (extract_tags_noNL (stripL back)) h1
      (extract_title_stripped (splitNL front)) (extract_tags_stripped (splitNL front))
      (extract_tags_stripped (splitNL (stripL back)))
      (bodyTags_of_source hyF h2 h3)
      (bodyBS_of_source hyF h2 h10)
      (bodyTags_of_source hyB h4 h5)
      (bodyHeading_of_source hyB h4 h6)
      hDex h9 hE
    exact ⟨c1, c2, fun _ => ⟨c3, c4⟩⟩

end Cardify

namespace Cardify

/-- C2 (counterexample): the export/re-import round trip does not
preserve the tags text for every card. For the front content
`"Tags: #a\nTags: #b"` with an empty back, the extracted tags are
`"#a"`, but re-importing the exported markdown yields `"#b"`: the
export removes only the first tags line and then appends a fresh
`Tags: #a` line after the surviving `Tags: #b` body line, which
re-import finds first. -/
theorem c2_counterexample :
    extractTagsS "Tags: #a\nTags: #b".toList = "#a".toList ∧
    extractTagsS (export_markdown_content "Tags: #a\nTags: #b".toList [])
      = "#b".toList := by
  decide

/-- C2 witness: the amended round-trip theorem applied to the concrete
card with front `"# Hi\n\nBody\n\nTags: #x"` and back
`"# Bye\n\nStuff\n\nTags: #y"`. -/
theorem c2_roundtrip_witness :
    extractTitleS (export_markdown_content "# Hi\n\nBody\n\nTags: #x".toList
        "# Bye\n\nStuff\n\nTags: #y".toList)
      = extractTitleS "# Hi\n\nBody\n\nTags: #x".toList ∧
    extractTagsS (export_markdown_content "# Hi\n\nBody\n\nTags: #x".toList
        "# Bye\n\nStuff\n\nTags: #y".toList)
      = extractTagsS "# Hi\n\nBody\n\nTags: #x".toList ∧
    extract_title (backSectionLines (export_markdown_content
        "# Hi\n\nBody\n\nTags: #x".toList "# Bye\n\nStuff\n\nTags: #y".toList))
      = extractTitleS (stripL "# Bye\n\nStuff\n\nTags: #y".toList) ∧
    extract_tags (backSectionLines (export_markdown_content
        "# Hi\n\nBody\n\nTags: #x".toList "# Bye\n\nStuff\n\nTags: #y".toList))
      = extractTagsS (stripL "# Bye\n\nStuff\n\nTags: #y".toList) := by
  have h := c2_roundtrip "# Hi\n\nBody\n\nTags: #x".toList
    "# Bye\n\nStuff\n\nTags: #y".toList
    (by decide) (by decide) (by decide) (by decide) (by decide) (by decide)
    (by decide) (by decide) (by decide) (by decide)
  exact ⟨h.1, h.2.1, (h.2.2 (by decide)).1, (h.2.2 (by decide)).2⟩

end Cardify
